import Mathlib

/-!
Verification of the audiobooker text-segmentation and audio-assembly pipeline
(`app.py`).  Text is modelled as `List Char`; Python's whitespace-sensitive
regular-expression splits are modelled character-for-character (the `\s` class
is modelled by its ASCII part, which is also what `str.strip` removes on the
ASCII inputs at hand).  All definitions are executable and structurally
recursive so that concrete runs evaluate by `decide`.
-/

namespace Audiobooker

/-- ASCII whitespace, the characters matched by Python's `\s` on ASCII text
and removed by `str.strip()`. -/
def isWS (c : Char) : Bool :=
  c == ' ' || c == '\t' || c == '\n' || c == '\r' || c == '\x0b' || c == '\x0c'

/-- Python `str.strip()`: remove leading and trailing whitespace. -/
def strip (l : List Char) : List Char :=
  ((l.dropWhile isWS).reverse.dropWhile isWS).reverse

/-- Index of the last `'\n'` in a list, if any. -/
def lastNlIdx : List Char → Option Nat
  | [] => none
  | c :: cs =>
    match lastNlIdx cs with
    | some k => some (k + 1)
    | none => if c = '\n' then some 0 else none

/-- Length of the match of `\n\s*\n` (greedy, as in `re.split`) at the head of
the list: a `'\n'`, then the whitespace run up to and including its last
`'\n'`.  `none` when the pattern does not match here. -/
def paraSepLen : List Char → Option Nat
  | [] => none
  | c :: rest =>
    if c = '\n' then
      match lastNlIdx (rest.takeWhile isWS) with
      | some k => some (k + 2)
      | none => none
    else none

/-- Worker for `re.split(r'\n\s*\n', ·)`: scans left to right, splitting at
each leftmost match.  `fuel` only makes the recursion structural; it is called
with `fuel = length` which always suffices. -/
def paraAux : Nat → List Char → List Char → List (List Char)
  | _, [], acc => [acc.reverse]
  | 0, l, acc => [acc.reverse ++ l]
  | fuel + 1, c :: rest, acc =>
    match paraSepLen (c :: rest) with
    | some n => acc.reverse :: paraAux fuel (List.drop n (c :: rest)) []
    | none => paraAux fuel rest (c :: acc)

/-- `re.split(r'\n\s*\n', text)` from `smart_text_split`. -/
def splitParas (text : List Char) : List (List Char) :=
  paraAux text.length text []

/-- The three sentence-terminal punctuation characters of the lookbehind
`(?<=[.!?])`. -/
def isPunct3 : Option Char → Bool
  | some c => c == '.' || c == '!' || c == '?'
  | none => false

/-- Worker for `re.split(r'(?<=[.!?])\s+', ·)`: a character-at-a-time scan.
`skipping` is true while consuming the (maximal) whitespace run of a
separator; `prev` is the previously consumed character (the lookbehind). -/
def sentAux : Bool → Option Char → List Char → List Char → List (List Char)
  | true, _, _, [] => [[]]
  | false, _, acc, [] => [acc.reverse]
  | true, _, _, c :: rest =>
    if isWS c then sentAux true none [] rest
    else sentAux false (some c) [c] rest
  | false, prev, acc, c :: rest =>
    if isPunct3 prev && isWS c then acc.reverse :: sentAux true none [] rest
    else sentAux false (some c) (c :: acc) rest

/-- `re.split(r'(?<=[.!?])\s+', paragraph)` from `smart_text_split`. -/
def splitSentences (p : List Char) : List (List Char) :=
  sentAux false none [] p

/-- The sentence-accumulation loop of `smart_text_split` (the `for sentence in
sentences` loop together with the trailing flush of `current_chunk`). -/
def buildChunksAux (max_length : Nat) :
    List (List Char) → List (List Char) → List Char → List (List Char)
  | [], chunks, cur => if strip cur ≠ [] then chunks ++ [strip cur] else chunks
  | s :: ss, chunks, cur =>
    if cur ≠ [] ∧ max_length < cur.length + 1 + s.length then
      buildChunksAux max_length ss (chunks ++ [strip cur]) s
    else
      buildChunksAux max_length ss chunks (if cur = [] then s else cur ++ (' ' :: s))

/-- `MAX_CHUNK_LENGTH` from `app.py`. -/
def MAX_CHUNK_LENGTH : Nat := 300

/-- `smart_text_split` from `app.py`: split into paragraphs on blank lines,
emit short paragraphs whole, and greedily pack the sentences of long
paragraphs into chunks. -/
def smart_text_split (text : List Char) (max_length : Nat) : List (List Char) :=
  (splitParas text).foldl
    (fun chunks para =>
      let p := strip para
      if p = [] then chunks
      else if p.length ≤ max_length then chunks ++ [p]
      else buildChunksAux max_length (splitSentences p) chunks [])
    []

/-- Python `' '.join(chunks)` (the joining convention of the chunk
accumulator `current_chunk + " " + sentence`). -/
def joinSpace : List (List Char) → List Char
  | [] => []
  | [t] => t
  | t :: t' :: ts => t ++ ' ' :: joinSpace (t' :: ts)

/-- The sentences of a text, in order: paragraphs (dropping the blank ones)
are trimmed and sentence-split exactly as `smart_text_split` does for an
over-long paragraph. -/
def sentencesOf (text : List Char) : List (List Char) :=
  (splitParas text).foldl
    (fun acc para =>
      let p := strip para
      if p = [] then acc else acc ++ splitSentences p)
    []

/-- Modelled from the spec (§4.2, the chunk/sentence guarantees of C2): the
chunks of `smart_text_split` described at sentence granularity — each chunk
is a nonempty consecutive group of whole sentences.  A short paragraph is one
group (all its sentences); an over-long paragraph is grouped by the same
greedy length rule the source applies to the joined text.  Comparing
`smart_text_split` with these groups is what proves that no sentence is split
across two chunks and that chunk order is sentence order. -/
def groupChunksAux (max_length : Nat) :
    List (List Char) → List (List (List Char)) → List (List Char) →
      List (List (List Char))
  | [], gs, g => if g ≠ [] then gs ++ [g] else gs
  | s :: ss, gs, g =>
    if joinSpace g ≠ [] ∧ max_length < (joinSpace g).length + 1 + s.length then
      groupChunksAux max_length ss (gs ++ [g]) [s]
    else
      groupChunksAux max_length ss gs (g ++ [s])

/-- Modelled from the spec (§4.2): the sentence groups corresponding to the
chunks of `smart_text_split text max_length`, in order. -/
def specSentenceGroups (text : List Char) (max_length : Nat) :
    List (List (List Char)) :=
  (splitParas text).foldl
    (fun gs para =>
      let p := strip para
      if p = [] then gs
      else if p.length ≤ max_length then gs ++ [splitSentences p]
      else groupChunksAux max_length (splitSentences p) gs [])
    []

/-! ## Chapter detection (`detect_chapters`) -/

/-- `text.split('\n')`: split at every newline, keeping empty pieces. -/
def splitLinesAux : List Char → List Char → List (List Char)
  | [], acc => [acc.reverse]
  | c :: rest, acc =>
    if c = '\n' then acc.reverse :: splitLinesAux rest []
    else splitLinesAux rest (c :: acc)

/-- Python `text.split('\n')`. -/
def splitLines (text : List Char) : List (List Char) :=
  splitLinesAux text []

/-- Python `'\n'.join(lines)`. -/
def joinNl : List (List Char) → List Char
  | [] => []
  | [t] => t
  | t :: t' :: ts => t ++ '\n' :: joinNl (t' :: ts)

/-- The non-whitespace characters of a text, in order: the residue that
"whitespace normalization" must preserve. -/
def visChars (l : List Char) : List Char :=
  l.filter (fun c => ! isWS c)

/-- The trimmed non-blank entries of a line list, in order. -/
def nbOf (ls : List (List Char)) : List (List Char) :=
  (ls.map strip).filter (fun t => ! t.isEmpty)

/-- The non-blank lines of a text, each trimmed, in order. -/
def nblines (x : List Char) : List (List Char) :=
  nbOf (splitLines x)

/-- Consume a literal word, case-insensitively (`re.IGNORECASE`); returns the
rest of the input on success. -/
def eatCI : List Char → List Char → Option (List Char)
  | [], l => some l
  | _ :: _, [] => none
  | p :: ps, c :: cs => if c.toLower = p.toLower then eatCI ps cs else none

/-- Does the list start with an ASCII decimal digit (`\d`)? -/
def headDigit : List Char → Bool
  | [] => false
  | c :: _ => c.isDigit

/-- Does the list start with an ASCII letter (`[A-Z]` under `re.IGNORECASE`)? -/
def headAlpha : List Char → Bool
  | [] => false
  | c :: _ => c.isAlpha

/-- `re.match(r'^\s*W\s+\d+', line, re.IGNORECASE)` on an already-stripped
line, for a literal word `W` (covers the Chapter/Part/Section/Book
patterns). -/
def matchWordNum (w : List Char) (l : List Char) : Bool :=
  match eatCI w l with
  | some r =>
    match r with
    | c :: cs => isWS c && headDigit (cs.dropWhile isWS)
    | [] => false
  | none => false

/-- `re.match(r'^\s*Ch\.\s*\d+', line, re.IGNORECASE)` on a stripped line. -/
def matchChDot (l : List Char) : Bool :=
  match eatCI ('c' :: 'h' :: ['.']) l with
  | some r => headDigit (r.dropWhile isWS)
  | none => false

/-- `re.match(r'^\s*\d+\.\s*[A-Z]', line, re.IGNORECASE)` on a stripped
line. -/
def matchNumDot (l : List Char) : Bool :=
  headDigit l &&
    match l.dropWhile Char.isDigit with
    | '.' :: r => headAlpha (r.dropWhile isWS)
    | _ => false

/-- The `chapter_patterns` loop of `detect_chapters`: does any pattern match
`line.strip()`?  (The two case variants of `Chapter` and `PART` collapse under
`re.IGNORECASE`; they are kept to mirror the source list.) -/
def isChapterLine (line : List Char) : Bool :=
  let l := strip line
  matchWordNum ('c' :: 'h' :: 'a' :: 'p' :: 't' :: 'e' :: ['r']) l ||
  matchWordNum ('c' :: 'h' :: 'a' :: 'p' :: 't' :: 'e' :: ['r']) l ||
  matchChDot l ||
  matchNumDot l ||
  matchWordNum ('p' :: 'a' :: 'r' :: ['t']) l ||
  matchWordNum ('p' :: 'a' :: 'r' :: ['t']) l ||
  matchWordNum ('s' :: 'e' :: 'c' :: 't' :: 'i' :: 'o' :: ['n']) l ||
  matchWordNum ('b' :: 'o' :: 'o' :: ['k']) l

/-- A Section record (`{'text': ..., 'is_chapter_title': ...}`). -/
structure TextSection where
  text : List Char
  is_chapter_title : Bool
deriving DecidableEq, Repr

/-- The indices of the lines matching a chapter pattern (`chapter_indices`). -/
def chapterIndices (lines : List (List Char)) : List Nat :=
  (List.range lines.length).filter (fun i => isChapterLine (lines.getD i []))

/-- The section-building loop of `detect_chapters`: walk the title indices in
order, emitting pre-title content, the title line, and the title's content
block; `current_start` and the "next title" lookup are as in the source. -/
def buildSections (lines : List (List Char)) (allIdx : List Nat) :
    Nat → List Nat → List TextSection
  | _, [] => []
  | current_start, idx :: rest =>
    let pre : List TextSection :=
      if current_start < idx then
        let t := strip (joinNl ((lines.drop current_start).take (idx - current_start)))
        if t ≠ [] then [⟨t, false⟩] else []
      else []
    let title : List TextSection :=
      let t := strip (lines.getD idx [])
      if t ≠ [] then [⟨t, true⟩] else []
    let nextIdx := allIdx.find? (fun j => decide (idx < j))
    let contentEnd := nextIdx.getD lines.length
    let content : List TextSection :=
      if idx + 1 < contentEnd then
        let t := strip (joinNl ((lines.drop (idx + 1)).take (contentEnd - (idx + 1))))
        if t ≠ [] then [⟨t, false⟩] else []
      else []
    pre ++ title ++ content ++
      buildSections lines allIdx (nextIdx.getD lines.length) rest

/-- `detect_chapters` from `app.py`. -/
def detect_chapters (text : List Char) : List TextSection :=
  let lines := splitLines text
  let idxs := chapterIndices lines
  if idxs = [] then [⟨text, false⟩]
  else buildSections lines idxs 0 idxs

/-! ## The assembly pipeline (`create_audiobook`)

The section loop of `create_audiobook` (from `sections = detect_chapters(...)`
on) is modelled as a fold over the detected sections.  Audio tensors are lists
of rational samples; the external Narrator (`model.generate`, with the voice
prompt and the generation weights folded in) is a parameter returning `none`
on a raised exception; the external Encoder (`convert_to_mp3`, i.e. ffmpeg
availability plus transcode success) is a parameter deciding the fate of each
target file.  File-system effects are logged (`saved`, `removed`); console
printing is external and not modelled.  The unguarded division
`total_chars / total_duration` in the final statistics raises
`ZeroDivisionError` when no audio duration was recorded, which is the `exn`
outcome. -/

/-- An audio buffer: a list of samples (`torch.Tensor` of one dimension). -/
abbrev Audio := List ℚ

/-- The output files `create_audiobook` can write: `chapter{n}.wav`,
`chapter{n}.mp3` (in `output_dir`), and the single-file `output_path` wav and
its `.mp3` sibling. -/
inductive FName where
  | chapterWav (n : Nat)
  | chapterMp3 (n : Nat)
  | outWav
  | outMp3
deriving DecidableEq, Repr

/-- One entry of `chapter_stats` (the per-section statistics dict). -/
structure Stat where
  section_no : Nat
  is_chapter_title : Bool
  chunks : Nat
  duration : ℚ
  chars : Nat
deriving DecidableEq, Repr

/-- The configuration and external collaborators of one `create_audiobook`
run.  `narrate t` is the outcome of `model.generate` on text `t` (`none` when
it raises); `encodeOk f` is whether `convert_to_mp3` to target `f` succeeds
(ffmpeg present and transcode ok). -/
structure Cfg where
  narrate : List Char → Option Audio
  sr : Nat
  chapter_pause : ℚ
  split_chapters : Bool
  convert_mp3 : Bool
  encodeOk : FName → Bool

/-- `pause_samples = int(chapter_pause * model.sr)`. -/
def pauseSamples (cfg : Cfg) : Nat :=
  (Int.floor (cfg.chapter_pause * (cfg.sr : ℚ))).toNat

/-- `pause_audio = torch.zeros(pause_samples)`. -/
def pauseAudio (cfg : Cfg) : Audio :=
  List.replicate (pauseSamples cfg) 0

/-- The mutable state of the section loop plus the file-system log. -/
structure PState where
  saved : List (FName × Audio)
  removed : List FName
  chapter_files : List FName
  current_chapter_audio : List Audio
  current_chapter : Nat
  all_audio_chunks : List Audio
  total_chunks : Nat
  chapter_stats : List Stat
deriving DecidableEq, Repr

/-- Initial loop state. -/
def initState : PState :=
  { saved := [], removed := [], chapter_files := [],
    current_chapter_audio := [], current_chapter := 0,
    all_audio_chunks := [], total_chunks := 0, chapter_stats := [] }

/-- Append one audio unit to `all_audio_chunks` and, when splitting chapters,
to `current_chapter_audio` (the pattern at lines 250-252, 272-274, 333-335 of
`app.py`). -/
def appendUnit (cfg : Cfg) (a : Audio) (st : PState) : PState :=
  { st with
    all_audio_chunks := st.all_audio_chunks ++ [a],
    current_chapter_audio :=
      if cfg.split_chapters then st.current_chapter_audio ++ [a]
      else st.current_chapter_audio }

/-- Write one chapter buffer to disk: save `chapter{n}.wav`, then, when MP3
conversion is requested, transcode and on success record the mp3 and delete
the wav, otherwise record the wav (lines 222-241 and 351-370 of `app.py`).
Does not reset `current_chapter_audio` (the caller does, mid-loop). -/
def flushChapter (cfg : Cfg) (n : Nat) (st : PState) : PState :=
  let audio := st.current_chapter_audio.flatten
  let st := { st with saved := st.saved ++ [(FName.chapterWav n, audio)] }
  if cfg.convert_mp3 then
    if cfg.encodeOk (FName.chapterMp3 n) then
      { st with
        saved := st.saved ++ [(FName.chapterMp3 n, audio)],
        chapter_files := st.chapter_files ++ [FName.chapterMp3 n],
        removed := st.removed ++ [FName.chapterWav n] }
    else { st with chapter_files := st.chapter_files ++ [FName.chapterWav n] }
  else { st with chapter_files := st.chapter_files ++ [FName.chapterWav n] }

/-- Processing of one chapter-title section (lines 216-288 of `app.py`):
bump the chapter counter, flush the previous chapter buffer when splitting,
add the pre-title pause (not for the very first section), narrate the title
(an exception `continue`s to the next section, skipping the post-title
pause), and add the post-title pause. -/
def processTitle (cfg : Cfg) (section_idx : Nat) (text : List Char)
    (st : PState) : PState :=
  let st := { st with current_chapter := st.current_chapter + 1 }
  let st :=
    if cfg.split_chapters ∧ 1 < st.current_chapter ∧ st.current_chapter_audio ≠ [] then
      { flushChapter cfg (st.current_chapter - 1) st with current_chapter_audio := [] }
    else st
  let st :=
    if 0 < section_idx ∧ 0 < cfg.chapter_pause then appendUnit cfg (pauseAudio cfg) st
    else st
  match cfg.narrate text with
  | none => st
  | some wav =>
    let st := appendUnit cfg wav st
    if 0 < cfg.chapter_pause then appendUnit cfg (pauseAudio cfg) st else st

/-- Processing of one content section (lines 290-347 of `app.py`): split into
chunks, narrate each (failures are skipped), concatenate the successful chunk
audio, append it, and record the section statistics. -/
def processContent (cfg : Cfg) (section_idx : Nat) (text : List Char)
    (st : PState) : PState :=
  let text_chunks := smart_text_split text MAX_CHUNK_LENGTH
  let st := { st with total_chunks := st.total_chunks + text_chunks.length }
  if text_chunks = [] then st
  else
    let section_audio_chunks := text_chunks.filterMap cfg.narrate
    if section_audio_chunks ≠ [] then
      let section_audio := section_audio_chunks.flatten
      let st := appendUnit cfg section_audio st
      { st with
        chapter_stats := st.chapter_stats ++
          [{ section_no := section_idx + 1, is_chapter_title := false,
             chunks := text_chunks.length,
             duration := (section_audio.length : ℚ) / (cfg.sr : ℚ),
             chars := text.length }] }
    else st

/-- One iteration of the `for section_idx, section_data in enumerate(sections)`
loop. -/
def processSection (cfg : Cfg) (st : PState) (p : Nat × TextSection) : PState :=
  if p.2.is_chapter_title then processTitle cfg p.1 p.2.text st
  else processContent cfg p.1 p.2.text st

/-- The whole section loop, run from the initial state. -/
def runSections (cfg : Cfg) (sections : List TextSection) : PState :=
  sections.enum.foldl (processSection cfg) initState

/-- A deleted file is justified when it is an uncompressed wav whose MP3
transcode was requested and succeeded (`os.remove` is only reached in that
branch). -/
def removalJustified (cfg : Cfg) : FName → Bool
  | FName.chapterWav n => cfg.convert_mp3 && cfg.encodeOk (FName.chapterMp3 n)
  | FName.outWav => cfg.convert_mp3 && cfg.encodeOk FName.outMp3
  | _ => false

/-- Is this file `chapter0.wav` or `chapter0.mp3`? -/
def isChapterZero : FName → Bool
  | FName.chapterWav n => n == 0
  | FName.chapterMp3 n => n == 0
  | _ => false

/-- The reported outcome of a run: a return value, or an uncaught exception
(the `ZeroDivisionError` of the average-speaking-rate statistic when the total
recorded duration is zero). -/
inductive RunResult where
  | ok (b : Bool)
  | exn
deriving DecidableEq, Repr

/-- `create_audiobook` from `app.py`, from `sections = detect_chapters(...)`
to its return: the section loop, the final chapter flush, the no-audio
failure return, the single-file save with optional MP3 conversion, and the
statistics epilogue. -/
def create_audiobook (cfg : Cfg) (full_text : List Char) : RunResult × PState :=
  let sections := detect_chapters full_text
  let st := runSections cfg sections
  let st :=
    if cfg.split_chapters ∧ st.current_chapter_audio ≠ [] then
      flushChapter cfg st.current_chapter st
    else st
  if st.all_audio_chunks = [] then (RunResult.ok false, st)
  else
    let st :=
      if ¬ cfg.split_chapters then
        let full_audio := st.all_audio_chunks.flatten
        let st := { st with saved := st.saved ++ [(FName.outWav, full_audio)] }
        if cfg.convert_mp3 then
          if cfg.encodeOk FName.outMp3 then
            { st with
              saved := st.saved ++ [(FName.outMp3, full_audio)],
              removed := st.removed ++ [FName.outWav] }
          else st
        else st
      else st
    let total_duration := (st.chapter_stats.map Stat.duration).sum
    if total_duration = 0 then (RunResult.exn, st) else (RunResult.ok true, st)

/-! ## Concrete fixtures for counterexamples and witnesses -/

/-- A two-paragraph document: `smart_text_split` yields two chunks. -/
def docTwoParas : List Char := ("Para one.\n\nPara two.").toList

/-- The second chunk of `docTwoParas`. -/
def sndPara : List Char := ("Para two.").toList

/-- A narrator failing exactly on `sndPara`, sample rate 1, no pauses, single
output file, no MP3. -/
def cfgOneFail : Cfg :=
  ⟨fun t => if t = sndPara then none else some [0], 1, 0, false, false,
    fun _ => false⟩

/-- An always-failing narrator with a 1-second pause at 1 Hz, per-chapter
output. -/
def cfgAllFail : Cfg := ⟨fun _ => none, 1, 1, true, false, fun _ => false⟩

/-- A document whose chapter title is preceded by content. -/
def docIntroChapter : List Char := ("intro\nChapter 1").toList

/-- An always-failing narrator with zero pause. -/
def cfgAllFailNoPause : Cfg := ⟨fun _ => none, 1, 0, true, false, fun _ => false⟩

/-- A chapter title followed by content. -/
def docChapterHello : List Char := ("Chapter 1\nhello").toList

/-- An always-succeeding narrator (audio `[1]`), zero pause, per-chapter
output. -/
def cfgOk : Cfg := ⟨fun _ => some [1], 1, 0, true, false, fun _ => false⟩

/-- Content, then a chapter title, then more content. -/
def docIntroChapterBody : List Char := ("intro\nChapter 1\nbody").toList

/-- Narration succeeds, MP3 conversion requested but the Encoder always
fails. -/
def cfgMp3Fail : Cfg := ⟨fun _ => some [2], 1, 1, true, true, fun _ => false⟩

/-- A two-chapter document. -/
def docTwoChapters : List Char := ("Chapter 1\na\nChapter 2\nb").toList

/-- The sections of `docIntroChapterBody`. -/
def secIntro : TextSection := ⟨("intro").toList, false⟩

/-- The title section of `docIntroChapterBody`. -/
def secChapter1 : TextSection := ⟨("Chapter 1").toList, true⟩

/-- The trailing content section of `docIntroChapterBody`. -/
def secBody : TextSection := ⟨("body").toList, false⟩

/-! ## Basic lemmas about `strip` -/

theorem dropWhile_head_false {p : Char → Bool} {l : List Char} {c : Char}
    {cs : List Char} (h : l.dropWhile p = c :: cs) : p c = false := by
  induction l with
  | nil => simp at h
  | cons a t ih =>
    by_cases hp : p a
    · rw [List.dropWhile_cons_of_pos hp] at h; exact ih h
    · rw [List.dropWhile_cons_of_neg hp] at h
      cases h
      simpa using hp

theorem dropWhile_eq_nil_of_all {p : Char → Bool} {l : List Char}
    (h : ∀ c ∈ l, p c = true) : l.dropWhile p = [] := by
  induction l with
  | nil => rfl
  | cons a t ih =>
    rw [List.dropWhile_cons_of_pos (h a (by simp))]
    exact ih fun c hc => h c (by simp [hc])

theorem strip_sublist (l : List Char) : List.Sublist (strip l) l := by
  unfold strip
  have h1 : List.Sublist ((l.dropWhile isWS).reverse.dropWhile isWS).reverse
      (l.dropWhile isWS).reverse.reverse := (List.dropWhile_sublist _).reverse
  rw [List.reverse_reverse] at h1
  exact h1.trans (List.dropWhile_sublist _)

theorem strip_length_le (l : List Char) : (strip l).length ≤ l.length :=
  (strip_sublist l).length_le

theorem filter_dropWhile {l : List Char} :
    (l.dropWhile isWS).filter (fun c => ! isWS c) = l.filter (fun c => ! isWS c) := by
  induction l with
  | nil => rfl
  | cons a t ih =>
    by_cases hp : isWS a
    · rw [List.dropWhile_cons_of_pos hp, ih, List.filter_cons_of_neg (by simp [hp])]
    · rw [List.dropWhile_cons_of_neg hp]

theorem filter_strip (l : List Char) :
    (strip l).filter (fun c => ! isWS c) = l.filter (fun c => ! isWS c) := by
  unfold strip
  rw [List.filter_reverse, filter_dropWhile, List.filter_reverse,
    List.reverse_reverse, filter_dropWhile]

theorem dropWhile_isSuffix (p : Char → Bool) (l : List Char) :
    List.IsSuffix (l.dropWhile p) l := by
  induction l with
  | nil => exact List.suffix_refl _
  | cons a t ih =>
    by_cases hp : p a
    · rw [List.dropWhile_cons_of_pos hp]
      exact ih.trans (List.suffix_cons a t)
    · rw [List.dropWhile_cons_of_neg hp]

/-- The last character of a nonempty `strip l` is not whitespace. -/
theorem strip_getLast_not_ws {l : List Char} {c : Char}
    (h : (strip l).getLast? = some c) : isWS c = false := by
  unfold strip at h
  rw [List.getLast?_eq_head?_reverse, List.reverse_reverse] at h
  rcases hx : (l.dropWhile isWS).reverse.dropWhile isWS with _ | ⟨d, ds⟩
  · rw [hx] at h; simp at h
  · rw [hx] at h
    simp only [List.head?_cons, Option.some_inj] at h
    subst h
    exact dropWhile_head_false hx

/-- The first character of a nonempty `strip l` is not whitespace. -/
theorem strip_head_not_ws {l : List Char} {c : Char}
    (h : (strip l).head? = some c) : isWS c = false := by
  unfold strip at h
  rw [← List.getLast?_eq_head?_reverse] at h
  rcases dropWhile_isSuffix isWS (l.dropWhile isWS).reverse with ⟨t, ht⟩
  have h2 : (l.dropWhile isWS).reverse.getLast? = some c := by
    rw [← ht, List.getLast?_append, h]
    rfl
  rw [List.getLast?_eq_head?_reverse, List.reverse_reverse] at h2
  rcases hz : l.dropWhile isWS with _ | ⟨e, es⟩
  · rw [hz] at h2; simp at h2
  · rw [hz] at h2
    simp only [List.head?_cons, Option.some_inj] at h2
    subst h2
    exact dropWhile_head_false hz

/-! ## Lemmas about the pipeline state -/

@[simp]
theorem appendUnit_all_audio (cfg : Cfg) (a : Audio) (st : PState) :
    (appendUnit cfg a st).all_audio_chunks = st.all_audio_chunks ++ [a] := rfl

@[simp]
theorem appendUnit_saved (cfg : Cfg) (a : Audio) (st : PState) :
    (appendUnit cfg a st).saved = st.saved := rfl

@[simp]
theorem appendUnit_removed (cfg : Cfg) (a : Audio) (st : PState) :
    (appendUnit cfg a st).removed = st.removed := rfl

@[simp]
theorem appendUnit_chapter_files (cfg : Cfg) (a : Audio) (st : PState) :
    (appendUnit cfg a st).chapter_files = st.chapter_files := rfl

@[simp]
theorem appendUnit_current_chapter (cfg : Cfg) (a : Audio) (st : PState) :
    (appendUnit cfg a st).current_chapter = st.current_chapter := rfl

@[simp]
theorem appendUnit_total_chunks (cfg : Cfg) (a : Audio) (st : PState) :
    (appendUnit cfg a st).total_chunks = st.total_chunks := rfl

@[simp]
theorem appendUnit_stats (cfg : Cfg) (a : Audio) (st : PState) :
    (appendUnit cfg a st).chapter_stats = st.chapter_stats := rfl

theorem flushChapter_audio_fields (cfg : Cfg) (n : Nat) (st : PState) :
    (flushChapter cfg n st).all_audio_chunks = st.all_audio_chunks ∧
    (flushChapter cfg n st).current_chapter_audio = st.current_chapter_audio ∧
    (flushChapter cfg n st).current_chapter = st.current_chapter ∧
    (flushChapter cfg n st).total_chunks = st.total_chunks ∧
    (flushChapter cfg n st).chapter_stats = st.chapter_stats := by
  unfold flushChapter
  dsimp only
  split
  · split <;> exact ⟨rfl, rfl, rfl, rfl, rfl⟩
  · exact ⟨rfl, rfl, rfl, rfl, rfl⟩

@[simp]
theorem flushChapter_all_audio (cfg : Cfg) (n : Nat) (st : PState) :
    (flushChapter cfg n st).all_audio_chunks = st.all_audio_chunks :=
  (flushChapter_audio_fields cfg n st).1

@[simp]
theorem flushChapter_stats (cfg : Cfg) (n : Nat) (st : PState) :
    (flushChapter cfg n st).chapter_stats = st.chapter_stats :=
  (flushChapter_audio_fields cfg n st).2.2.2.2

@[simp]
theorem flushChapter_cur (cfg : Cfg) (n : Nat) (st : PState) :
    (flushChapter cfg n st).current_chapter_audio = st.current_chapter_audio :=
  (flushChapter_audio_fields cfg n st).2.1

@[simp]
theorem flushChapter_cc (cfg : Cfg) (n : Nat) (st : PState) :
    (flushChapter cfg n st).current_chapter = st.current_chapter :=
  (flushChapter_audio_fields cfg n st).2.2.1

@[simp]
theorem flushChapter_total (cfg : Cfg) (n : Nat) (st : PState) :
    (flushChapter cfg n st).total_chunks = st.total_chunks :=
  (flushChapter_audio_fields cfg n st).2.2.2.1

@[simp]
theorem appendUnit_cur (cfg : Cfg) (a : Audio) (st : PState) :
    (appendUnit cfg a st).current_chapter_audio =
      if cfg.split_chapters then st.current_chapter_audio ++ [a]
      else st.current_chapter_audio := rfl

theorem processTitle_cc (cfg : Cfg) (idx : Nat) (text : List Char) (st : PState) :
    (processTitle cfg idx text st).current_chapter = st.current_chapter + 1 := by
  unfold processTitle
  cases hn : cfg.narrate text <;> simp only [hn] <;> split_ifs <;> simp

theorem processTitle_total (cfg : Cfg) (idx : Nat) (text : List Char)
    (st : PState) :
    (processTitle cfg idx text st).total_chunks = st.total_chunks := by
  unfold processTitle
  cases hn : cfg.narrate text <;> simp only [hn] <;> split_ifs <;> simp

theorem processTitle_stats (cfg : Cfg) (idx : Nat) (text : List Char)
    (st : PState) :
    (processTitle cfg idx text st).chapter_stats = st.chapter_stats := by
  unfold processTitle
  cases hn : cfg.narrate text <;> simp only [hn] <;> split_ifs <;> simp

/-- The chapter buffer after a title step: possibly reset by the flush, then
extended (when splitting) by exactly the units that the step appends to the
main buffer. -/
theorem processTitle_cur (cfg : Cfg) (idx : Nat) (text : List Char)
    (st : PState) :
    (processTitle cfg idx text st).current_chapter_audio =
      (if cfg.split_chapters ∧ 1 < st.current_chapter + 1 ∧
          st.current_chapter_audio ≠ [] then []
       else st.current_chapter_audio) ++
      (if cfg.split_chapters then
        (if 0 < idx ∧ 0 < cfg.chapter_pause then [pauseAudio cfg] else []) ++
        (match cfg.narrate text with
         | none => []
         | some w =>
           [w] ++ (if 0 < cfg.chapter_pause then [pauseAudio cfg] else []))
       else []) := by
  unfold processTitle
  cases hn : cfg.narrate text <;> simp only [hn] <;> split_ifs <;>
    simp_all [List.append_assoc]

theorem processContent_removed (cfg : Cfg) (idx : Nat) (text : List Char)
    (st : PState) :
    (processContent cfg idx text st).removed = st.removed := by
  unfold processContent
  dsimp only
  split_ifs <;> rfl

theorem processContent_saved (cfg : Cfg) (idx : Nat) (text : List Char)
    (st : PState) :
    (processContent cfg idx text st).saved = st.saved := by
  unfold processContent
  dsimp only
  split_ifs <;> rfl

theorem processContent_chapter_files (cfg : Cfg) (idx : Nat) (text : List Char)
    (st : PState) :
    (processContent cfg idx text st).chapter_files = st.chapter_files := by
  unfold processContent
  dsimp only
  split_ifs <;> rfl

theorem processContent_cc (cfg : Cfg) (idx : Nat) (text : List Char)
    (st : PState) :
    (processContent cfg idx text st).current_chapter = st.current_chapter := by
  unfold processContent
  dsimp only
  split_ifs <;> rfl

theorem processContent_total (cfg : Cfg) (idx : Nat) (text : List Char)
    (st : PState) :
    (processContent cfg idx text st).total_chunks =
      st.total_chunks + (smart_text_split text MAX_CHUNK_LENGTH).length := by
  unfold processContent
  dsimp only
  split_ifs <;> rfl

theorem processContent_all_audio (cfg : Cfg) (idx : Nat) (text : List Char)
    (st : PState) :
    (processContent cfg idx text st).all_audio_chunks =
      st.all_audio_chunks ++
        (if (smart_text_split text MAX_CHUNK_LENGTH).filterMap cfg.narrate = []
         then []
         else [((smart_text_split text MAX_CHUNK_LENGTH).filterMap
             cfg.narrate).flatten]) := by
  unfold processContent
  dsimp only
  split_ifs <;> simp_all

theorem processContent_cur (cfg : Cfg) (idx : Nat) (text : List Char)
    (st : PState) :
    (processContent cfg idx text st).current_chapter_audio =
      st.current_chapter_audio ++
        (if (smart_text_split text MAX_CHUNK_LENGTH).filterMap cfg.narrate = [] ∨
            ¬ cfg.split_chapters then []
         else [((smart_text_split text MAX_CHUNK_LENGTH).filterMap
             cfg.narrate).flatten]) := by
  unfold processContent
  dsimp only
  split_ifs <;> simp_all <;> tauto

theorem processContent_stats (cfg : Cfg) (idx : Nat) (text : List Char)
    (st : PState) :
    (processContent cfg idx text st).chapter_stats =
      st.chapter_stats ++
        (if (smart_text_split text MAX_CHUNK_LENGTH).filterMap cfg.narrate = []
         then []
         else
          [{ section_no := idx + 1, is_chapter_title := false,
             chunks := (smart_text_split text MAX_CHUNK_LENGTH).length,
             duration :=
               ((((smart_text_split text MAX_CHUNK_LENGTH).filterMap
                   cfg.narrate).flatten).length : ℚ) / (cfg.sr : ℚ),
             chars := text.length }]) := by
  unfold processContent
  dsimp only
  split_ifs <;> simp_all

/-- What one chapter-title section appends to the running output buffer
`all_audio_chunks`: the pre-title pause when the section is not the first and
the pause is positive, then — only when narration succeeds — the title audio
and the post-title pause. -/
theorem processTitle_all_audio (cfg : Cfg) (idx : Nat) (text : List Char)
    (st : PState) :
    (processTitle cfg idx text st).all_audio_chunks =
      st.all_audio_chunks ++
        (if 0 < idx ∧ 0 < cfg.chapter_pause then [pauseAudio cfg] else []) ++
        (match cfg.narrate text with
         | none => []
         | some w =>
           [w] ++ (if 0 < cfg.chapter_pause then [pauseAudio cfg] else [])) := by
  unfold processTitle
  rcases hn : cfg.narrate text with _ | w <;>
    simp only [hn] <;> split_ifs <;> simp [List.append_assoc]

/-! ## C4: the post-title pause -/

/-- **C4, counterexample.**  The claim says a Pause AudioUnit is appended
after a chapter title with `pause_duration > 0` *both* when the title's
narration succeeds and when it fails.  At this concrete input (a title
section, `chapter_pause = 1 > 0`, a Narrator that fails) the `continue` in
the exception handler skips the post-title pause: the output buffer stays
empty, so no Pause was appended at all. -/
theorem c4_counterexample :
    0 < (Cfg.mk (fun _ => none) 1 1 false false (fun _ => false)).chapter_pause ∧
    (Cfg.mk (fun _ => none) 1 1 false false (fun _ => false)).narrate
      ('T' :: []) = none ∧
    (processTitle (Cfg.mk (fun _ => none) 1 1 false false (fun _ => false)) 0
      ('T' :: []) initState).all_audio_chunks = [] := by
  refine ⟨by norm_num, rfl, ?_⟩
  rw [processTitle_all_audio]
  simp [initState]

/-- **C4 (amended).**  For every chapter-title section with
`pause_duration > 0`: when the Narrator call for the title succeeds, the
title audio followed by a post-title Pause is appended (preceded by the
pre-title Pause when the section is not the first); when the Narrator call
fails, the `continue` skips the post-title pause, so only the pre-title
Pause (if any) is appended. -/
theorem c4_amended (cfg : Cfg) (idx : Nat) (text : List Char) (st : PState)
    (hp : 0 < cfg.chapter_pause) :
    (processTitle cfg idx text st).all_audio_chunks =
      st.all_audio_chunks ++
        (if 0 < idx then [pauseAudio cfg] else []) ++
        (match cfg.narrate text with
         | none => []
         | some w => [w, pauseAudio cfg]) := by
  rw [processTitle_all_audio]
  rcases cfg.narrate text with _ | w <;> simp [hp]

/-- **C4 (amended), witness** at a concrete successful title and a concrete
failing title. -/
theorem c4_amended_witness :
    (processTitle (Cfg.mk (fun _ => some [2]) 1 1 true false (fun _ => false)) 1
      ('T' :: []) initState).all_audio_chunks =
      initState.all_audio_chunks ++
        (if 0 < 1 then
          [pauseAudio (Cfg.mk (fun _ => some [2]) 1 1 true false (fun _ => false))]
         else []) ++
        (match (Cfg.mk (fun _ => some [2]) 1 1 true false
            (fun _ => false)).narrate ('T' :: []) with
         | none => []
         | some w =>
           [w, pauseAudio (Cfg.mk (fun _ => some [2]) 1 1 true false
              (fun _ => false))]) :=
  c4_amended (Cfg.mk (fun _ => some [2]) 1 1 true false (fun _ => false)) 1
    ('T' :: []) initState (by norm_num)

/-! ## C8: pause sample counts at 1.0 s and 24000 Hz -/

/-- **C8.**  With `chapter_pause_seconds = 1.0` and sample rate 24000, a
chapter-title section whose narration succeeds gets a silence unit of exactly
`int(1.0 * 24000) = 24000` samples immediately before the title audio
whenever the title is not the very first section, and one of exactly 24000
samples immediately after it. -/
theorem c8_pause_samples (cfg : Cfg) (idx : Nat) (text : List Char)
    (st : PState) (w : Audio)
    (hp : cfg.chapter_pause = 1) (hsr : cfg.sr = 24000)
    (hn : cfg.narrate text = some w) :
    (processTitle cfg idx text st).all_audio_chunks =
      st.all_audio_chunks ++
        (if 0 < idx then [List.replicate 24000 (0 : ℚ)] else []) ++
        [w, List.replicate 24000 (0 : ℚ)] := by
  have hpa : pauseAudio cfg = List.replicate 24000 (0 : ℚ) := by
    unfold pauseAudio pauseSamples
    rw [hp, hsr]
    norm_num
    rfl
  rw [processTitle_all_audio, hn, hpa, hp]
  have h1 : (0 : ℚ) < 1 := by norm_num
  simp only [h1, and_true, if_true, List.append_assoc, List.cons_append,
    List.nil_append, List.singleton_append]

/-- **C8, witness** at a concrete run (second section, successful title). -/
theorem c8_pause_samples_witness :
    (processTitle (Cfg.mk (fun _ => some [5]) 24000 1 false false
        (fun _ => false)) 1 ('T' :: []) initState).all_audio_chunks =
      initState.all_audio_chunks ++
        (if 0 < 1 then [List.replicate 24000 (0 : ℚ)] else []) ++
        [[5], List.replicate 24000 (0 : ℚ)] :=
  c8_pause_samples (Cfg.mk (fun _ => some [5]) 24000 1 false false
    (fun _ => false)) 1 ('T' :: []) initState [5] rfl rfl rfl

/-! ## C5: one failed chunk in a section -/

theorem filterMap_length_of_isSome {α β : Type} (f : α → Option β) :
    ∀ l : List α, (∀ a ∈ l, (f a).isSome) → (l.filterMap f).length = l.length := by
  intro l
  induction l with
  | nil => intro _; rfl
  | cons a t ih =>
    intro h
    obtain ⟨b, hb⟩ := Option.isSome_iff_exists.mp (h a (by simp))
    rw [List.filterMap_cons_some hb, List.length_cons, List.length_cons,
      ih fun x hx => h x (by simp [hx])]

theorem filterMap_one_none {α β : Type} (f : α → Option β) (l : List α) :
    ∀ (i : Nat) (hi : i < l.length),
      f (l.get ⟨i, hi⟩) = none →
      (∀ j (hj : j < l.length), j ≠ i → (f (l.get ⟨j, hj⟩)).isSome) →
      l.filterMap f = (l.eraseIdx i).filterMap f ∧
        (l.filterMap f).length = l.length - 1 := by
  induction l with
  | nil => intro i hi; simp at hi
  | cons a t ih =>
    intro i hi hnone hsome
    cases i with
    | zero =>
      have ha : f a = none := hnone
      have hall : ∀ x ∈ t, (f x).isSome := by
        intro x hx
        obtain ⟨⟨j, hj⟩, rfl⟩ := List.mem_iff_get.mp hx
        have := hsome (j + 1) (by simpa using hj) (by simp)
        simpa using this
      refine ⟨?_, ?_⟩
      · rw [List.filterMap_cons_none ha, List.eraseIdx_cons_zero]
      · rw [List.filterMap_cons_none ha, filterMap_length_of_isSome f t hall]
        simp
    | succ k =>
      have hk : k < t.length := by simpa using hi
      obtain ⟨b, hb⟩ := Option.isSome_iff_exists.mp
        (hsome 0 (by simp) (by simp))
      have hb : f a = some b := hb
      have hn : f (t.get ⟨k, hk⟩) = none := by simpa using hnone
      have hs : ∀ j (hj : j < t.length), j ≠ k → (f (t.get ⟨j, hj⟩)).isSome := by
        intro j hj hne
        have := hsome (j + 1) (by simpa using hj) (by simpa using hne)
        simpa using this
      obtain ⟨e1, e2⟩ := ih k hk hn hs
      refine ⟨?_, ?_⟩
      · rw [List.eraseIdx_cons_succ, List.filterMap_cons_some hb,
          List.filterMap_cons_some hb, e1]
      · rw [List.filterMap_cons_some hb, List.length_cons, List.length_cons, e2]
        omega

/-- **C5 (amended).**  If the Narrator fails for exactly the `i`-th chunk out
of `N > 1` in a content section, the emitted section audio is exactly the
concatenation of the other `N − 1` chunks' audio in original order, and the
recorded statistics entry records the *attempted* chunk count `N` (there is
no skipped-unit counter in the statistics). -/
theorem c5_one_failed_chunk (cfg : Cfg) (sidx : Nat) (text : List Char)
    (st : PState) (i : Nat)
    (hi : i < (smart_text_split text MAX_CHUNK_LENGTH).length)
    (hN : 1 < (smart_text_split text MAX_CHUNK_LENGTH).length)
    (hnone : cfg.narrate ((smart_text_split text MAX_CHUNK_LENGTH).get ⟨i, hi⟩) = none)
    (hsome : ∀ j (hj : j < (smart_text_split text MAX_CHUNK_LENGTH).length),
      j ≠ i →
      (cfg.narrate ((smart_text_split text MAX_CHUNK_LENGTH).get ⟨j, hj⟩)).isSome) :
    (processContent cfg sidx text st).all_audio_chunks =
      st.all_audio_chunks ++
        [(((smart_text_split text MAX_CHUNK_LENGTH).eraseIdx i).filterMap
            cfg.narrate).flatten] ∧
    (((smart_text_split text MAX_CHUNK_LENGTH).eraseIdx i).filterMap
        cfg.narrate).length =
      (smart_text_split text MAX_CHUNK_LENGTH).length - 1 ∧
    (processContent cfg sidx text st).chapter_stats =
      st.chapter_stats ++
        [{ section_no := sidx + 1, is_chapter_title := false,
           chunks := (smart_text_split text MAX_CHUNK_LENGTH).length,
           duration :=
             (((((smart_text_split text MAX_CHUNK_LENGTH).eraseIdx i).filterMap
                 cfg.narrate).flatten).length : ℚ) / (cfg.sr : ℚ),
           chars := text.length }] := by
  obtain ⟨e1, e2⟩ := filterMap_one_none cfg.narrate _ i hi hnone hsome
  have hne : ¬ smart_text_split text MAX_CHUNK_LENGTH = [] := by
    intro h; rw [h] at hN; simp at hN
  have hfm : ¬ (smart_text_split text MAX_CHUNK_LENGTH).filterMap cfg.narrate = [] := by
    intro h
    have hlen := congrArg List.length h
    rw [e2] at hlen
    simp at hlen
    omega
  unfold processContent
  simp only [hne, if_neg, ← e1, hfm, ite_not, if_false]
  refine ⟨by simp, e2, by simp⟩

/-- **C5 (amended), witness**: the two-chunk document `docTwoParas` with the
second chunk failing. -/
theorem c5_one_failed_chunk_witness :
    (processContent cfgOneFail 0 docTwoParas initState).all_audio_chunks =
      initState.all_audio_chunks ++
        [(((smart_text_split docTwoParas MAX_CHUNK_LENGTH).eraseIdx 1).filterMap
            cfgOneFail.narrate).flatten] ∧
    (((smart_text_split docTwoParas MAX_CHUNK_LENGTH).eraseIdx 1).filterMap
        cfgOneFail.narrate).length =
      (smart_text_split docTwoParas MAX_CHUNK_LENGTH).length - 1 ∧
    (processContent cfgOneFail 0 docTwoParas initState).chapter_stats =
      initState.chapter_stats ++
        [{ section_no := 0 + 1, is_chapter_title := false,
           chunks := (smart_text_split docTwoParas MAX_CHUNK_LENGTH).length,
           duration :=
             (((((smart_text_split docTwoParas MAX_CHUNK_LENGTH).eraseIdx 1).filterMap
                 cfgOneFail.narrate).flatten).length : ℚ) / (cfgOneFail.sr : ℚ),
           chars := docTwoParas.length }] :=
  c5_one_failed_chunk cfgOneFail 0 docTwoParas initState 1 (by decide) (by decide)
    (by decide) (by decide)

unseal Rat.mul Rat.add Rat.inv Rat.sub in
/-- **C5, counterexample.**  The claim also says the pipeline "records
exactly 1 skipped unit in the pipeline statistics".  The statistics kept by
`create_audiobook` are `total_chunks` and the `chapter_stats` entries
(section number, title flag, chunk count, duration, characters) — there is no
skipped-unit counter.  At this concrete run one chunk of two fails and one
audio unit is emitted, yet the complete recorded statistics are
`total_chunks = 2` and a single entry with `chunks := 2` (the attempted
count): no statistic records the one skipped unit. -/
theorem c5_counterexample :
    (smart_text_split docTwoParas MAX_CHUNK_LENGTH).length = 2 ∧
    cfgOneFail.narrate ((smart_text_split docTwoParas MAX_CHUNK_LENGTH).getD 1 []) =
      none ∧
    (cfgOneFail.narrate
      ((smart_text_split docTwoParas MAX_CHUNK_LENGTH).getD 0 [])).isSome = true ∧
    (create_audiobook cfgOneFail docTwoParas).2.all_audio_chunks = [[0]] ∧
    (create_audiobook cfgOneFail docTwoParas).2.chapter_stats =
      [{ section_no := 1, is_chapter_title := false, chunks := 2,
         duration := 1, chars := 20 }] ∧
    (create_audiobook cfgOneFail docTwoParas).2.total_chunks = 2 := by decide

/-! ## C3: a run in which every Narrator call fails -/

theorem filterMap_eq_nil_of_none {α β : Type} (f : α → Option β) :
    ∀ l : List α, (∀ a ∈ l, f a = none) → l.filterMap f = [] := by
  intro l
  induction l with
  | nil => intro _; rfl
  | cons a t ih =>
    intro h
    rw [List.filterMap_cons_none (h a (by simp)), ih fun x hx => h x (by simp [hx])]

theorem processSection_title (cfg : Cfg) (st : PState) (idx : Nat)
    (sec : TextSection) (h : sec.is_chapter_title = true) :
    processSection cfg st (idx, sec) = processTitle cfg idx sec.text st := by
  simp [processSection, h]

theorem processSection_content (cfg : Cfg) (st : PState) (idx : Nat)
    (sec : TextSection) (h : sec.is_chapter_title = false) :
    processSection cfg st (idx, sec) = processContent cfg idx sec.text st := by
  simp [processSection, h]

/-- A chapter-title step whose narration fails and whose pre-title pause
condition does not hold leaves the file log and the audio buffers empty. -/
theorem title_step_empty (cfg : Cfg) (idx : Nat) (text : List Char)
    (st : PState) (hfail : cfg.narrate text = none)
    (hB : ¬ (0 < idx ∧ 0 < cfg.chapter_pause))
    (h1 : st.saved = []) (h2 : st.all_audio_chunks = [])
    (h3 : st.current_chapter_audio = []) :
    (processTitle cfg idx text st).saved = [] ∧
    (processTitle cfg idx text st).all_audio_chunks = [] ∧
    (processTitle cfg idx text st).current_chapter_audio = [] := by
  simp only [processTitle, hfail, h3, hB, ne_eq, eq_self_iff_true,
    not_true_eq_false, and_false, if_false]
  exact ⟨h1, h2, trivial⟩

/-- A content step all of whose chunk narrations fail changes nothing except
the attempted-chunk counter. -/
theorem content_step_fields (cfg : Cfg) (idx : Nat) (text : List Char)
    (st : PState)
    (hfm : (smart_text_split text MAX_CHUNK_LENGTH).filterMap cfg.narrate = []) :
    (processContent cfg idx text st).saved = st.saved ∧
    (processContent cfg idx text st).all_audio_chunks = st.all_audio_chunks ∧
    (processContent cfg idx text st).current_chapter_audio =
      st.current_chapter_audio := by
  unfold processContent
  simp only [hfm, ne_eq, eq_self_iff_true, not_true_eq_false, if_false, ite_self]
  exact ⟨trivial, trivial, trivial⟩

/-- One loop step under an always-failing narrator: when titles only occur as
the first section or the pause is non-positive, the file log and both audio
buffers stay empty. -/
theorem c3_step (cfg : Cfg) (p : Nat × TextSection) (st : PState)
    (hfail : ∀ t, cfg.narrate t = none)
    (hp : p.2.is_chapter_title = true → p.1 = 0 ∨ cfg.chapter_pause ≤ 0)
    (h1 : st.saved = []) (h2 : st.all_audio_chunks = [])
    (h3 : st.current_chapter_audio = []) :
    (processSection cfg st p).saved = [] ∧
    (processSection cfg st p).all_audio_chunks = [] ∧
    (processSection cfg st p).current_chapter_audio = [] := by
  obtain ⟨idx, sec⟩ := p
  cases hb : sec.is_chapter_title with
  | true =>
    rw [processSection_title cfg st idx sec hb]
    have hB : ¬ (0 < idx ∧ 0 < cfg.chapter_pause) := by
      rintro ⟨hidx, hpause⟩
      rcases hp hb with h | h
      · replace h : idx = 0 := h
        rw [h] at hidx
        exact absurd hidx (lt_irrefl 0)
      · exact absurd hpause (not_lt.mpr h)
    exact title_step_empty cfg idx sec.text st (hfail _) hB h1 h2 h3
  | false =>
    rw [processSection_content cfg st idx sec hb]
    obtain ⟨g1, g2, g3⟩ := content_step_fields cfg idx sec.text st
      (filterMap_eq_nil_of_none _ _ fun a _ => hfail a)
    exact ⟨g1.trans h1, g2.trans h2, g3.trans h3⟩

/-- The whole loop under an always-failing narrator. -/
theorem c3_run (cfg : Cfg) (hfail : ∀ t, cfg.narrate t = none) :
    ∀ (l : List (Nat × TextSection)) (st : PState),
      (∀ p ∈ l, p.2.is_chapter_title = true → p.1 = 0 ∨ cfg.chapter_pause ≤ 0) →
      st.saved = [] → st.all_audio_chunks = [] → st.current_chapter_audio = [] →
      (List.foldl (processSection cfg) st l).saved = [] ∧
      (List.foldl (processSection cfg) st l).all_audio_chunks = [] ∧
      (List.foldl (processSection cfg) st l).current_chapter_audio = [] := by
  intro l
  induction l with
  | nil => exact fun st _ h1 h2 h3 => ⟨h1, h2, h3⟩
  | cons p rest ih =>
    intro st hl h1 h2 h3
    rw [List.foldl_cons]
    obtain ⟨g1, g2, g3⟩ := c3_step cfg p st hfail (hl p (by simp)) h1 h2 h3
    exact ih _ (fun q hq => hl q (by simp [hq])) g1 g2 g3

unseal Rat.mul Rat.add Rat.inv Rat.sub in
/-- **C3, counterexample.**  The claim says that when every Narrator call
fails the pipeline reports overall failure and writes no output file,
regardless of the pause setting.  At this concrete input (`docIntroChapter` =
content followed by a chapter title, `chapter_pause = 1`, an always-failing
narrator, per-chapter output) the pre-title pause is appended to the buffer
before the failing narration, so the buffer is non-empty: a chapter file
consisting of one second of silence is written, and the run does not return
`False` — it ends in the uncaught `ZeroDivisionError` of the statistics
epilogue. -/
theorem c3_counterexample :
    cfgAllFail.narrate ([] : List Char) = none ∧
    0 < cfgAllFail.chapter_pause ∧
    (create_audiobook cfgAllFail docIntroChapter).2.saved =
      [(FName.chapterWav 1, [0])] ∧
    (create_audiobook cfgAllFail docIntroChapter).1 ≠ RunResult.ok false := by
  decide

/-- **C3 (amended).**  If every Narrator call fails *and no pause unit is
appended* — the pause is non-positive, or every chapter-title section is the
very first section — then the pipeline returns `False` and writes no output
file.  (The counterexample forces the proviso: a positive pause before a
non-initial chapter title is appended to the buffer even when all narration
fails, and is then written out.) -/
theorem c3_amended (cfg : Cfg) (doc : List Char)
    (hfail : ∀ t, cfg.narrate t = none)
    (hnp : ∀ p ∈ (detect_chapters doc).enum, p.2.is_chapter_title = true →
      p.1 = 0 ∨ cfg.chapter_pause ≤ 0) :
    (create_audiobook cfg doc).1 = RunResult.ok false ∧
    (create_audiobook cfg doc).2.saved = [] := by
  obtain ⟨g1, g2, g3⟩ :=
    c3_run cfg hfail ((detect_chapters doc).enum) initState hnp rfl rfl rfl
  have hrs : runSections cfg (detect_chapters doc) =
      (detect_chapters doc).enum.foldl (processSection cfg) initState := rfl
  unfold create_audiobook
  rw [← hrs] at g1 g2 g3
  simp only [g3, ne_eq, not_true_eq_false, and_false, if_false, g2, if_pos]
  exact ⟨trivial, g1⟩

/-- **C3 (amended), witness**: an always-failing narrator with zero pause on
a document with a chapter title and content. -/
theorem c3_amended_witness :
    (create_audiobook cfgAllFailNoPause docChapterHello).1 = RunResult.ok false ∧
    (create_audiobook cfgAllFailNoPause docChapterHello).2.saved = [] :=
  c3_amended cfgAllFailNoPause docChapterHello (fun _ => rfl) (by decide)

/-! ## C9: encoder failure handling -/

theorem flushChapter_removed (cfg : Cfg) (n : Nat) (st : PState) :
    (flushChapter cfg n st).removed = st.removed ∨
    ((flushChapter cfg n st).removed = st.removed ++ [FName.chapterWav n] ∧
      cfg.convert_mp3 = true ∧ cfg.encodeOk (FName.chapterMp3 n) = true) := by
  unfold flushChapter
  dsimp only
  split_ifs with h1 h2
  · exact Or.inr ⟨rfl, h1, h2⟩
  · exact Or.inl rfl
  · exact Or.inl rfl

theorem removed_all_flush (cfg : Cfg) (n : Nat) (st : PState)
    (h : st.removed.all (removalJustified cfg) = true) :
    (flushChapter cfg n st).removed.all (removalJustified cfg) = true := by
  rcases flushChapter_removed cfg n st with he | ⟨he, hc, hk⟩ <;> rw [he]
  · exact h
  · simp [List.all_append, h, removalJustified, hc, hk]

theorem processTitle_removed_all (cfg : Cfg) (idx : Nat) (text : List Char)
    (st : PState) (h : st.removed.all (removalJustified cfg) = true) :
    (processTitle cfg idx text st).removed.all (removalJustified cfg) = true := by
  unfold processTitle
  cases hn : cfg.narrate text <;> simp only [hn] <;> split_ifs <;>
    first
      | exact h
      | exact removed_all_flush cfg _ _ h

theorem processSection_removed_all (cfg : Cfg) (st : PState)
    (p : Nat × TextSection)
    (h : st.removed.all (removalJustified cfg) = true) :
    (processSection cfg st p).removed.all (removalJustified cfg) = true := by
  obtain ⟨idx, sec⟩ := p
  cases hb : sec.is_chapter_title with
  | true =>
    rw [processSection_title cfg st idx sec hb]
    exact processTitle_removed_all cfg idx sec.text st h
  | false =>
    rw [processSection_content cfg st idx sec hb, processContent_removed]
    exact h

theorem run_removed_all (cfg : Cfg) :
    ∀ (l : List (Nat × TextSection)) (st : PState),
      st.removed.all (removalJustified cfg) = true →
      (List.foldl (processSection cfg) st l).removed.all
        (removalJustified cfg) = true := by
  intro l
  induction l with
  | nil => exact fun st h => h
  | cons p rest ih =>
    intro st h
    rw [List.foldl_cons]
    exact ih _ (processSection_removed_all cfg st p h)

/-- The files `create_audiobook` ever deletes are wavs whose requested MP3
transcode succeeded. -/
theorem create_removed_all (cfg : Cfg) (doc : List Char) :
    ((create_audiobook cfg doc).2).removed.all (removalJustified cfg) = true := by
  have base : (runSections cfg (detect_chapters doc)).removed.all
      (removalJustified cfg) = true :=
    run_removed_all cfg (detect_chapters doc).enum initState rfl
  unfold create_audiobook
  dsimp only
  split_ifs <;>
    simp_all [List.all_append, removalJustified, removed_all_flush]

/-- The reported outcome of a run, as a function of the loop state alone: the
file-writing epilogue does not influence it. -/
theorem create_result_eq (cfg : Cfg) (doc : List Char) :
    (create_audiobook cfg doc).1 =
      (if (runSections cfg (detect_chapters doc)).all_audio_chunks = [] then
        RunResult.ok false
       else if ((runSections cfg (detect_chapters doc)).chapter_stats.map
           Stat.duration).sum = 0 then RunResult.exn
       else RunResult.ok true) := by
  unfold create_audiobook
  dsimp only
  split_ifs <;> simp_all

theorem pauseAudio_encodeOk (cfg : Cfg) (e : FName → Bool) :
    pauseAudio { cfg with encodeOk := e } = pauseAudio cfg := rfl

/-- The fields that feed back into control flow and into the reported result
(`all_audio_chunks`, `current_chapter_audio`, `current_chapter`,
`total_chunks`, `chapter_stats`) evolve identically under any two Encoder
behaviours. -/
theorem processTitle_view_indep (cfg : Cfg) (e e' : FName → Bool) (idx : Nat)
    (text : List Char) (st st' : PState)
    (h1 : st.all_audio_chunks = st'.all_audio_chunks)
    (h2 : st.current_chapter_audio = st'.current_chapter_audio)
    (h3 : st.current_chapter = st'.current_chapter)
    (h4 : st.total_chunks = st'.total_chunks)
    (h5 : st.chapter_stats = st'.chapter_stats) :
    (processTitle { cfg with encodeOk := e } idx text st).all_audio_chunks =
      (processTitle { cfg with encodeOk := e' } idx text st').all_audio_chunks ∧
    (processTitle { cfg with encodeOk := e } idx text st).current_chapter_audio =
      (processTitle { cfg with encodeOk := e' } idx text st').current_chapter_audio ∧
    (processTitle { cfg with encodeOk := e } idx text st).current_chapter =
      (processTitle { cfg with encodeOk := e' } idx text st').current_chapter ∧
    (processTitle { cfg with encodeOk := e } idx text st).total_chunks =
      (processTitle { cfg with encodeOk := e' } idx text st').total_chunks ∧
    (processTitle { cfg with encodeOk := e } idx text st).chapter_stats =
      (processTitle { cfg with encodeOk := e' } idx text st').chapter_stats := by
  refine ⟨?_, ?_, ?_, ?_, ?_⟩
  · rw [processTitle_all_audio, processTitle_all_audio]
    simp [pauseAudio_encodeOk, h1]
  · rw [processTitle_cur, processTitle_cur]
    simp [pauseAudio_encodeOk, h2, h3]
  · rw [processTitle_cc, processTitle_cc, h3]
  · rw [processTitle_total, processTitle_total, h4]
  · rw [processTitle_stats, processTitle_stats, h5]

theorem processContent_view_indep (cfg : Cfg) (e e' : FName → Bool) (idx : Nat)
    (text : List Char) (st st' : PState)
    (h1 : st.all_audio_chunks = st'.all_audio_chunks)
    (h2 : st.current_chapter_audio = st'.current_chapter_audio)
    (h3 : st.current_chapter = st'.current_chapter)
    (h4 : st.total_chunks = st'.total_chunks)
    (h5 : st.chapter_stats = st'.chapter_stats) :
    (processContent { cfg with encodeOk := e } idx text st).all_audio_chunks =
      (processContent { cfg with encodeOk := e' } idx text st').all_audio_chunks ∧
    (processContent { cfg with encodeOk := e } idx text st).current_chapter_audio =
      (processContent { cfg with encodeOk := e' } idx text st').current_chapter_audio ∧
    (processContent { cfg with encodeOk := e } idx text st).current_chapter =
      (processContent { cfg with encodeOk := e' } idx text st').current_chapter ∧
    (processContent { cfg with encodeOk := e } idx text st).total_chunks =
      (processContent { cfg with encodeOk := e' } idx text st').total_chunks ∧
    (processContent { cfg with encodeOk := e } idx text st).chapter_stats =
      (processContent { cfg with encodeOk := e' } idx text st').chapter_stats := by
  refine ⟨?_, ?_, ?_, ?_, ?_⟩
  · rw [processContent_all_audio, processContent_all_audio]
    simp [h1]
  · rw [processContent_cur, processContent_cur]
    simp [h2]
  · rw [processContent_cc, processContent_cc, h3]
  · rw [processContent_total, processContent_total, h4]
  · rw [processContent_stats, processContent_stats, h5]

theorem processSection_view_indep (cfg : Cfg) (e e' : FName → Bool)
    (p : Nat × TextSection) (st st' : PState)
    (h1 : st.all_audio_chunks = st'.all_audio_chunks)
    (h2 : st.current_chapter_audio = st'.current_chapter_audio)
    (h3 : st.current_chapter = st'.current_chapter)
    (h4 : st.total_chunks = st'.total_chunks)
    (h5 : st.chapter_stats = st'.chapter_stats) :
    (processSection { cfg with encodeOk := e } st p).all_audio_chunks =
      (processSection { cfg with encodeOk := e' } st' p).all_audio_chunks ∧
    (processSection { cfg with encodeOk := e } st p).current_chapter_audio =
      (processSection { cfg with encodeOk := e' } st' p).current_chapter_audio ∧
    (processSection { cfg with encodeOk := e } st p).current_chapter =
      (processSection { cfg with encodeOk := e' } st' p).current_chapter ∧
    (processSection { cfg with encodeOk := e } st p).total_chunks =
      (processSection { cfg with encodeOk := e' } st' p).total_chunks ∧
    (processSection { cfg with encodeOk := e } st p).chapter_stats =
      (processSection { cfg with encodeOk := e' } st' p).chapter_stats := by
  obtain ⟨idx, sec⟩ := p
  cases hb : sec.is_chapter_title with
  | true =>
    rw [processSection_title _ _ idx sec hb, processSection_title _ _ idx sec hb]
    exact processTitle_view_indep cfg e e' idx sec.text st st' h1 h2 h3 h4 h5
  | false =>
    rw [processSection_content _ _ idx sec hb,
      processSection_content _ _ idx sec hb]
    exact processContent_view_indep cfg e e' idx sec.text st st' h1 h2 h3 h4 h5

theorem run_view_indep (cfg : Cfg) (e e' : FName → Bool) :
    ∀ (l : List (Nat × TextSection)) (st st' : PState),
      st.all_audio_chunks = st'.all_audio_chunks →
      st.current_chapter_audio = st'.current_chapter_audio →
      st.current_chapter = st'.current_chapter →
      st.total_chunks = st'.total_chunks →
      st.chapter_stats = st'.chapter_stats →
      (List.foldl (processSection { cfg with encodeOk := e }) st l).all_audio_chunks =
        (List.foldl (processSection { cfg with encodeOk := e' }) st' l).all_audio_chunks ∧
      (List.foldl (processSection { cfg with encodeOk := e }) st l).chapter_stats =
        (List.foldl (processSection { cfg with encodeOk := e' }) st' l).chapter_stats := by
  intro l
  induction l with
  | nil => exact fun st st' g1 _ _ _ g5 => ⟨g1, g5⟩
  | cons p rest ih =>
    intro st st' g1 g2 g3 g4 g5
    rw [List.foldl_cons, List.foldl_cons]
    obtain ⟨k1, k2, k3, k4, k5⟩ :=
      processSection_view_indep cfg e e' p st st' g1 g2 g3 g4 g5
    exact ih _ _ k1 k2 k3 k4 k5

theorem runSections_eq (cfg : Cfg) (sections : List TextSection) :
    runSections cfg sections =
      List.foldl (processSection cfg) initState sections.enum := rfl

/-- **C9.**  When MP3 encoding is requested but the Encoder fails for a
chapter flush, the uncompressed wav is the file written and recorded in
`chapter_files`, and nothing is deleted; across any whole run, a file is
deleted only when its requested transcode succeeded; and the Encoder's
behaviour never changes the reported outcome of the run. -/
theorem c9_encoder_failure (cfg : Cfg) (n : Nat) (st : PState)
    (doc : List Char) (e e' : FName → Bool)
    (hc : cfg.convert_mp3 = true)
    (hk : cfg.encodeOk (FName.chapterMp3 n) = false) :
    (flushChapter cfg n st).saved =
      st.saved ++ [(FName.chapterWav n, st.current_chapter_audio.flatten)] ∧
    (flushChapter cfg n st).chapter_files =
      st.chapter_files ++ [FName.chapterWav n] ∧
    (flushChapter cfg n st).removed = st.removed ∧
    ((create_audiobook cfg doc).2).removed.all (removalJustified cfg) = true ∧
    (create_audiobook { cfg with encodeOk := e } doc).1 =
      (create_audiobook { cfg with encodeOk := e' } doc).1 := by
  have key :
      (flushChapter cfg n st).saved =
        st.saved ++ [(FName.chapterWav n, st.current_chapter_audio.flatten)] ∧
      (flushChapter cfg n st).chapter_files =
        st.chapter_files ++ [FName.chapterWav n] ∧
      (flushChapter cfg n st).removed = st.removed := by
    unfold flushChapter
    dsimp only
    rw [if_pos hc, if_neg (by simp [hk])]
    exact ⟨rfl, rfl, rfl⟩
  refine ⟨key.1, key.2.1, key.2.2, create_removed_all cfg doc, ?_⟩
  rw [create_result_eq, create_result_eq, runSections_eq, runSections_eq]
  obtain ⟨ha, hs⟩ := run_view_indep cfg e e' (detect_chapters doc).enum
    initState initState rfl rfl rfl rfl rfl
  rw [ha, hs]

/-- **C9, witness**: a concrete flush with the Encoder failing, and a
concrete two-chapter run compared under two Encoder behaviours. -/
theorem c9_encoder_failure_witness :
    (flushChapter cfgMp3Fail 1 initState).saved =
      initState.saved ++
        [(FName.chapterWav 1, initState.current_chapter_audio.flatten)] ∧
    (flushChapter cfgMp3Fail 1 initState).chapter_files =
      initState.chapter_files ++ [FName.chapterWav 1] ∧
    (flushChapter cfgMp3Fail 1 initState).removed = initState.removed ∧
    ((create_audiobook cfgMp3Fail docTwoChapters).2).removed.all
      (removalJustified cfgMp3Fail) = true ∧
    (create_audiobook { cfgMp3Fail with encodeOk := fun _ => true }
        docTwoChapters).1 =
      (create_audiobook { cfgMp3Fail with encodeOk := fun _ => false }
        docTwoChapters).1 :=
  c9_encoder_failure cfgMp3Fail 1 initState docTwoChapters
    (fun _ => true) (fun _ => false) rfl rfl

/-! ## C10: leading content and per-chapter flushing -/

theorem mem_enum_snd {α : Type} {p : Nat × α} {l : List α} (h : p ∈ l.enum) :
    p.2 ∈ l := by
  have h2 : p.2 ∈ l.enum.map Prod.snd := List.mem_map_of_mem Prod.snd h
  rwa [List.enum_map_snd] at h2

/-- Folding content-only sections from the initial state accumulates the same
units into the chapter buffer as into the main buffer, writes nothing, and
leaves the chapter counter at its start value. -/
theorem run_content_only (cfg : Cfg) :
    ∀ (l : List (Nat × TextSection)) (st : PState),
      (∀ p ∈ l, p.2.is_chapter_title = false) →
      cfg.split_chapters = true →
      st.saved = [] → st.current_chapter = 0 →
      st.current_chapter_audio = st.all_audio_chunks →
      (List.foldl (processSection cfg) st l).saved = [] ∧
      (List.foldl (processSection cfg) st l).current_chapter = 0 ∧
      (List.foldl (processSection cfg) st l).current_chapter_audio =
        (List.foldl (processSection cfg) st l).all_audio_chunks := by
  intro l
  induction l with
  | nil => exact fun st _ _ h1 h2 h3 => ⟨h1, h2, h3⟩
  | cons p rest ih =>
    intro st hl hsplit h1 h2 h3
    rw [List.foldl_cons]
    obtain ⟨idx, sec⟩ := p
    rw [processSection_content cfg st idx sec (hl (idx, sec) (by simp))]
    refine ih _ (fun q hq => hl q (by simp [hq])) hsplit ?_ ?_ ?_
    · rw [processContent_saved]; exact h1
    · rw [processContent_cc]; exact h2
    · rw [processContent_cur, processContent_all_audio, h3, hsplit]
      split_ifs with hx hy <;> simp_all

theorem flushChapter_saved (cfg : Cfg) (n : Nat) (st : PState) :
    (flushChapter cfg n st).saved =
      st.saved ++ [(FName.chapterWav n, st.current_chapter_audio.flatten)] ++
        (if cfg.convert_mp3 = true ∧ cfg.encodeOk (FName.chapterMp3 n) = true
         then [(FName.chapterMp3 n, st.current_chapter_audio.flatten)]
         else []) := by
  unfold flushChapter
  dsimp only
  split_ifs with h1 h2 <;> simp_all

/-- The file log after a title step: exactly when the flush guard holds
(splitting, at least one prior chapter, a non-empty buffer), the previous
chapter is flushed; otherwise the log is unchanged. -/
theorem processTitle_saved_eq (cfg : Cfg) (idx : Nat) (text : List Char)
    (st : PState) :
    (processTitle cfg idx text st).saved =
      if cfg.split_chapters ∧ 1 < st.current_chapter + 1 ∧
          st.current_chapter_audio ≠ [] then
        (flushChapter cfg st.current_chapter
          { st with current_chapter := st.current_chapter + 1 }).saved
      else st.saved := by
  unfold processTitle
  cases hn : cfg.narrate text <;> simp only [hn] <;> split_ifs <;>
    simp [Nat.add_sub_cancel]

theorem cc_fold_le (cfg : Cfg) :
    ∀ (l : List (Nat × TextSection)) (st : PState),
      st.current_chapter ≤
        (List.foldl (processSection cfg) st l).current_chapter := by
  intro l
  induction l with
  | nil => exact fun st => le_refl _
  | cons p rest ih =>
    intro st
    rw [List.foldl_cons]
    refine le_trans ?_ (ih (processSection cfg st p))
    obtain ⟨idx, sec⟩ := p
    cases hb : sec.is_chapter_title with
    | true =>
      rw [processSection_title cfg st idx sec hb, processTitle_cc]
      exact Nat.le_succ _
    | false =>
      rw [processSection_content cfg st idx sec hb, processContent_cc]

theorem cc_fold_pos (cfg : Cfg) :
    ∀ (l : List (Nat × TextSection)) (st : PState) (p : Nat × TextSection),
      p ∈ l → p.2.is_chapter_title = true →
      1 ≤ (List.foldl (processSection cfg) st l).current_chapter := by
  intro l
  induction l with
  | nil => intro st p h; simp at h
  | cons q rest ih =>
    intro st p hp ht
    rw [List.foldl_cons]
    rcases List.mem_cons.mp hp with rfl | hmem
    · refine le_trans ?_ (cc_fold_le cfg rest _)
      obtain ⟨idx, sec⟩ := p
      rw [processSection_title cfg st idx sec ht, processTitle_cc]
      omega
    · exact ih _ p hmem ht

/-- One step preserves the chapter-1 invariant: either nothing has been
flushed, at most one title has been seen, and the chapter buffer still starts
with the leading units `L`; or the first file written is `chapter1.wav` and
its audio starts with `L.flatten`. -/
theorem exists_append_assoc {α : Type} (L v X : List α) :
    ∃ w, (L ++ v) ++ X = L ++ w :=
  ⟨v ++ X, List.append_assoc L v X⟩

theorem c10_inv_step (cfg : Cfg) (L : List Audio)
    (hsplit : cfg.split_chapters = true) (hL : L ≠ [])
    (p : Nat × TextSection) (st : PState)
    (hInv :
      (st.saved = [] ∧ st.current_chapter ≤ 1 ∧
        ∃ v, st.current_chapter_audio = L ++ v) ∨
      (∃ u rest, st.saved = (FName.chapterWav 1, L.flatten ++ u) :: rest)) :
    ((processSection cfg st p).saved = [] ∧
      (processSection cfg st p).current_chapter ≤ 1 ∧
      ∃ v, (processSection cfg st p).current_chapter_audio = L ++ v) ∨
    (∃ u rest, (processSection cfg st p).saved =
      (FName.chapterWav 1, L.flatten ++ u) :: rest) := by
  obtain ⟨idx, sec⟩ := p
  cases hb : sec.is_chapter_title with
  | false =>
    rw [processSection_content cfg st idx sec hb]
    rcases hInv with ⟨h1, h2, v, h3⟩ | ⟨u, rest, h1⟩
    · left
      refine ⟨by rw [processContent_saved]; exact h1,
        by rw [processContent_cc]; exact h2, ?_⟩
      rw [processContent_cur, h3]
      exact exists_append_assoc L v _
    · right
      exact ⟨u, rest, by rw [processContent_saved]; exact h1⟩
  | true =>
    rw [processSection_title cfg st idx sec hb]
    rcases hInv with ⟨h1, h2, v, h3⟩ | ⟨u, rest, h1⟩
    · have hcurne : st.current_chapter_audio ≠ [] := by
        rw [h3]
        cases L with
        | nil => exact absurd rfl hL
        | cons a as => simp
      by_cases hcc : st.current_chapter = 0
      · left
        have hcond : ¬ (cfg.split_chapters = true ∧ 1 < st.current_chapter + 1 ∧
            st.current_chapter_audio ≠ []) := by
          rintro ⟨-, hlt, -⟩
          rw [hcc] at hlt
          omega
        refine ⟨?_, ?_, ?_⟩
        · rw [processTitle_saved_eq, if_neg hcond]
          exact h1
        · rw [processTitle_cc, hcc]
        · rw [processTitle_cur, if_neg hcond, h3]
          exact exists_append_assoc L v _
      · right
        have hcc1 : st.current_chapter = 1 := by omega
        have hcond : cfg.split_chapters = true ∧ 1 < st.current_chapter + 1 ∧
            st.current_chapter_audio ≠ [] := ⟨hsplit, by omega, hcurne⟩
        have hsv : ({ st with current_chapter := st.current_chapter + 1 } :
            PState).saved = st.saved := rfl
        have hcv : ({ st with current_chapter := st.current_chapter + 1 } :
            PState).current_chapter_audio = st.current_chapter_audio := rfl
        rw [processTitle_saved_eq, if_pos hcond, flushChapter_saved, hsv, hcv,
          h1, hcc1, h3, List.flatten_append]
        simp only [List.nil_append, List.singleton_append]
        exact ⟨_, _, rfl⟩
    · right
      rw [processTitle_saved_eq]
      split_ifs with hc
      · have hsv : ({ st with current_chapter := st.current_chapter + 1 } :
            PState).saved = st.saved := rfl
        rw [flushChapter_saved, hsv, h1]
        simp only [List.cons_append, List.append_assoc]
        exact ⟨u, _, rfl⟩
      · exact ⟨u, rest, h1⟩

theorem c10_inv_fold (cfg : Cfg) (L : List Audio)
    (hsplit : cfg.split_chapters = true) (hL : L ≠ []) :
    ∀ (l : List (Nat × TextSection)) (st : PState),
      ((st.saved = [] ∧ st.current_chapter ≤ 1 ∧
        ∃ v, st.current_chapter_audio = L ++ v) ∨
       (∃ u rest, st.saved = (FName.chapterWav 1, L.flatten ++ u) :: rest)) →
      (((List.foldl (processSection cfg) st l).saved = [] ∧
        (List.foldl (processSection cfg) st l).current_chapter ≤ 1 ∧
        ∃ v, (List.foldl (processSection cfg) st l).current_chapter_audio =
          L ++ v) ∨
       (∃ u rest, (List.foldl (processSection cfg) st l).saved =
         (FName.chapterWav 1, L.flatten ++ u) :: rest)) := by
  intro l
  induction l with
  | nil => exact fun st h => h
  | cons p rest ih =>
    intro st h
    rw [List.foldl_cons]
    exact ih _ (c10_inv_step cfg L hsplit hL p st h)

theorem saved_names_ok_flush (cfg : Cfg) (n : Nat) (st : PState) (hn : 1 ≤ n)
    (h : (st.saved.map Prod.fst).all (fun f => ! isChapterZero f) = true) :
    ((flushChapter cfg n st).saved.map Prod.fst).all
      (fun f => ! isChapterZero f) = true := by
  have hne : (n == 0) = false := by
    have : n ≠ 0 := by omega
    simp [this]
  rw [flushChapter_saved]
  simp only [List.map_append, List.all_append, Bool.and_eq_true]
  refine ⟨⟨h, ?_⟩, ?_⟩
  · simp [isChapterZero, hne]
  · split_ifs with hc
    · simp [isChapterZero, hne]
    · simp

theorem saved_names_ok_step (cfg : Cfg) (st : PState) (p : Nat × TextSection)
    (h : (st.saved.map Prod.fst).all (fun f => ! isChapterZero f) = true) :
    ((processSection cfg st p).saved.map Prod.fst).all
      (fun f => ! isChapterZero f) = true := by
  obtain ⟨idx, sec⟩ := p
  cases hb : sec.is_chapter_title with
  | false =>
    rw [processSection_content cfg st idx sec hb, processContent_saved]
    exact h
  | true =>
    rw [processSection_title cfg st idx sec hb, processTitle_saved_eq]
    split_ifs with hc
    · exact saved_names_ok_flush cfg st.current_chapter _ (by omega) h
    · exact h

theorem saved_names_ok_fold (cfg : Cfg) :
    ∀ (l : List (Nat × TextSection)) (st : PState),
      (st.saved.map Prod.fst).all (fun f => ! isChapterZero f) = true →
      ((List.foldl (processSection cfg) st l).saved.map Prod.fst).all
        (fun f => ! isChapterZero f) = true := by
  intro l
  induction l with
  | nil => exact fun st h => h
  | cons p rest ih =>
    intro st h
    rw [List.foldl_cons]
    exact ih _ (saved_names_ok_step cfg st p h)

/-- Under per-chapter output, the file log of a whole run is the loop's file
log plus the final unconditional flush (when the buffer is non-empty); the
single-file epilogue is skipped. -/
theorem create_saved_eq_of_split (cfg : Cfg) (doc : List Char)
    (hsplit : cfg.split_chapters = true) :
    ((create_audiobook cfg doc).2).saved =
      (if (runSections cfg (detect_chapters doc)).current_chapter_audio ≠ []
       then
        (flushChapter cfg
          (runSections cfg (detect_chapters doc)).current_chapter
          (runSections cfg (detect_chapters doc))).saved
       else (runSections cfg (detect_chapters doc)).saved) := by
  unfold create_audiobook
  dsimp only
  split_ifs <;> simp_all

/-- **C10.**  In per-chapter mode, for a document whose first chapter title
is preceded by content sections: the leading content's audio stays in the
buffer through the first title (the flush guard `current_chapter > 1` fails
there, and it writes nothing), so the first file ever written is
`chapter1.wav` and its audio starts with the leading content's audio; and no
`chapter0` file (wav or mp3) is ever created. -/
theorem c10_leading_content (cfg : Cfg) (doc : List Char)
    (A B : List TextSection) (secK : TextSection)
    (hsplit : cfg.split_chapters = true)
    (hdec : detect_chapters doc = A ++ secK :: B)
    (hA : ∀ s ∈ A, s.is_chapter_title = false)
    (hsec : secK.is_chapter_title = true)
    (hL : (runSections cfg A).all_audio_chunks ≠ []) :
    (∃ u, ((create_audiobook cfg doc).2).saved.head? =
      some (FName.chapterWav 1,
        ((runSections cfg A).all_audio_chunks).flatten ++ u)) ∧
    ((((create_audiobook cfg doc).2).saved.map Prod.fst).all
      (fun f => ! isChapterZero f)) = true ∧
    (runSections cfg (A ++ [secK])).saved = [] := by
  obtain ⟨b1, b2, b3⟩ := run_content_only cfg A.enum initState
    (fun p hp => hA p.2 (mem_enum_snd hp)) hsplit rfl rfl rfl
  have hsA : runSections cfg A =
      List.foldl (processSection cfg) initState A.enum := rfl
  set L := (runSections cfg A).all_audio_chunks with hLdef
  have hInvA :
      ((List.foldl (processSection cfg) initState A.enum).saved = [] ∧
       (List.foldl (processSection cfg) initState A.enum).current_chapter ≤ 1 ∧
       ∃ v, (List.foldl (processSection cfg)
         initState A.enum).current_chapter_audio = L ++ v) ∨
      (∃ u rest, (List.foldl (processSection cfg) initState A.enum).saved =
        (FName.chapterWav 1, L.flatten ++ u) :: rest) := by
    left
    refine ⟨b1, by rw [b2]; omega, ⟨[], ?_⟩⟩
    rw [b3, List.append_nil, hLdef, hsA]
  have hrun : runSections cfg (detect_chapters doc) =
      List.foldl (processSection cfg)
        (List.foldl (processSection cfg) initState A.enum)
        ((A.length, secK) :: List.enumFrom (A.length + 1) B) := by
    rw [hdec, runSections_eq, List.enum_append, List.foldl_append]
    rfl
  have hInv2 := c10_inv_fold cfg L hsplit hL
    ((A.length, secK) :: List.enumFrom (A.length + 1) B) _ hInvA
  rw [← hrun] at hInv2
  have hcc1 : 1 ≤ (runSections cfg (detect_chapters doc)).current_chapter := by
    rw [hrun]
    exact cc_fold_pos cfg _ _ (A.length, secK) (by simp) hsec
  have hnames : ((runSections cfg (detect_chapters doc)).saved.map
      Prod.fst).all (fun f => ! isChapterZero f) = true := by
    rw [runSections_eq]
    exact saved_names_ok_fold cfg _ initState rfl
  have hsaved := create_saved_eq_of_split cfg doc hsplit
  set S := runSections cfg (detect_chapters doc) with hS
  refine ⟨?_, ?_, ?_⟩
  · rw [hsaved]
    rcases hInv2 with ⟨i1, i2, v, i3⟩ | ⟨u, rest, i1⟩
    · have hcur : S.current_chapter_audio ≠ [] := by
        rw [i3]
        intro hnil
        exact hL (List.append_eq_nil.mp hnil).1
      have hcc : S.current_chapter = 1 := le_antisymm i2 hcc1
      rw [if_pos hcur, flushChapter_saved, i1, hcc, i3, List.flatten_append]
      simp only [List.nil_append, List.singleton_append, List.head?_cons]
      exact ⟨v.flatten, rfl⟩
    · split_ifs with hcur
      · rw [flushChapter_saved, i1]
        simp only [List.cons_append, List.append_assoc, List.head?_cons]
        exact ⟨u, rfl⟩
      · rw [i1]
        simp only [List.head?_cons]
        exact ⟨u, rfl⟩
  · rw [hsaved]
    split_ifs with hcur
    · exact saved_names_ok_flush cfg S.current_chapter S hcc1 hnames
    · exact hnames
  · have hone : runSections cfg (A ++ [secK]) =
        processSection cfg (List.foldl (processSection cfg) initState A.enum)
          (A.length, secK) := by
      rw [runSections_eq, List.enum_append, List.foldl_append]
      rfl
    have hcond : ¬ (cfg.split_chapters = true ∧
        1 < (List.foldl (processSection cfg)
          initState A.enum).current_chapter + 1 ∧
        (List.foldl (processSection cfg)
          initState A.enum).current_chapter_audio ≠ []) := by
      rintro ⟨-, hlt, -⟩
      rw [b2] at hlt
      omega
    rw [hone, processSection_title _ _ _ _ hsec, processTitle_saved_eq,
      if_neg hcond]
    exact b1

unseal Rat.mul Rat.add Rat.inv Rat.sub in
/-- **C10, witness**: the concrete document `docIntroChapterBody` (content,
then `Chapter 1`, then content) under an always-succeeding narrator with
per-chapter output. -/
theorem c10_leading_content_witness :
    (∃ u, ((create_audiobook cfgOk docIntroChapterBody).2).saved.head? =
      some (FName.chapterWav 1,
        ((runSections cfgOk [secIntro]).all_audio_chunks).flatten ++ u)) ∧
    ((((create_audiobook cfgOk docIntroChapterBody).2).saved.map Prod.fst).all
      (fun f => ! isChapterZero f)) = true ∧
    (runSections cfgOk ([secIntro] ++ [secChapter1])).saved = [] :=
  c10_leading_content cfgOk docIntroChapterBody [secIntro] [secBody] secChapter1
    rfl (by decide) (by decide) (by decide) (by decide)

/-! ## C7: unstructured text -/

theorem chapterIndices_eq_nil {lines : List (List Char)}
    (h : ∀ l ∈ lines, isChapterLine l = false) :
    chapterIndices lines = [] := by
  unfold chapterIndices
  rw [List.filter_eq_nil_iff]
  intro i hi
  rw [List.mem_range] at hi
  rw [List.getD_eq_getElem _ _ hi]
  simp [h _ (List.getElem_mem hi)]

/-- **C7.**  On a text none of whose lines matches a chapter pattern,
`detect_chapters` returns exactly one section: the whole input, with
`is_chapter_title = false`. -/
theorem c7_unstructured (text : List Char)
    (h : ∀ line ∈ splitLines text, isChapterLine line = false) :
    detect_chapters text = [⟨text, false⟩] := by
  unfold detect_chapters
  dsimp only
  rw [chapterIndices_eq_nil h, if_pos rfl]

/-- **C7, witness**: the two-line text `hello\nworld` has no chapter line and
is returned as a single non-title section. -/
theorem c7_unstructured_witness :
    (∀ line ∈ splitLines (("hello\nworld").toList), isChapterLine line = false) ∧
    detect_chapters (("hello\nworld").toList) =
      [⟨("hello\nworld").toList, false⟩] :=
  ⟨by decide, c7_unstructured _ (by decide)⟩

/-! ## C6: groundwork on `strip`, `splitLines` and `joinNl` -/

theorem dropWhile_eq_self_of_head {p : Char → Bool} {l : List Char}
    (h : ∀ c, l.head? = some c → p c = false) : l.dropWhile p = l := by
  cases l with
  | nil => rfl
  | cons a t => exact List.dropWhile_cons_of_neg (by simp [h a rfl])

theorem strip_idem (l : List Char) : strip (strip l) = strip l := by
  have h1 : (strip l).dropWhile isWS = strip l :=
    dropWhile_eq_self_of_head fun c hc => strip_head_not_ws hc
  have h2 : (strip l).reverse.dropWhile isWS = (strip l).reverse :=
    dropWhile_eq_self_of_head fun c hc =>
      strip_getLast_not_ws (by rwa [List.getLast?_eq_head?_reverse])
  calc strip (strip l)
      = (((strip l).dropWhile isWS).reverse.dropWhile isWS).reverse := rfl
    _ = strip l := by rw [h1, h2, List.reverse_reverse]

theorem strip_eq_nil_iff {l : List Char} :
    strip l = [] ↔ ∀ c ∈ l, isWS c = true := by
  constructor
  · intro h c hc
    have hf := filter_strip l
    rw [h, List.filter_nil] at hf
    have h2 := (List.filter_eq_nil_iff.mp hf.symm) c hc
    simpa using h2
  · intro h
    have h1 : l.dropWhile isWS = [] := dropWhile_eq_nil_of_all h
    unfold strip
    rw [h1]
    rfl

theorem mem_joinNl {c : Char} {ls : List (List Char)} {l : List Char}
    (hl : l ∈ ls) (hc : c ∈ l) : c ∈ joinNl ls := by
  induction ls with
  | nil => cases hl
  | cons t ts ih =>
    cases ts with
    | nil =>
      rw [List.mem_singleton] at hl
      subst hl
      simpa [joinNl] using hc
    | cons t' ts' =>
      show c ∈ t ++ '\n' :: joinNl (t' :: ts')
      rcases List.mem_cons.mp hl with h | h
      · subst h
        exact List.mem_append_left _ hc
      · exact List.mem_append_right _ (List.mem_cons_of_mem _ (ih h))

theorem dropWhile_append_nil {p : Char → Bool} {z : List Char}
    (h : z.dropWhile p = []) (w : List Char) :
    (z ++ w).dropWhile p = w.dropWhile p := by
  induction z with
  | nil => rfl
  | cons a t ih =>
    by_cases hp : p a
    · rw [List.cons_append, List.dropWhile_cons_of_pos hp]
      rw [List.dropWhile_cons_of_pos hp] at h
      exact ih h
    · rw [List.dropWhile_cons_of_neg hp] at h
      cases h

theorem dropWhile_append_cons {p : Char → Bool} {z : List Char} {d : Char}
    {ds : List Char} (h : z.dropWhile p = d :: ds) (w : List Char) :
    (z ++ w).dropWhile p = d :: (ds ++ w) := by
  induction z with
  | nil => cases h
  | cons a t ih =>
    by_cases hp : p a
    · rw [List.cons_append, List.dropWhile_cons_of_pos hp]
      rw [List.dropWhile_cons_of_pos hp] at h
      exact ih h
    · rw [List.dropWhile_cons_of_neg hp] at h
      cases h
      rw [List.cons_append, List.dropWhile_cons_of_neg hp]

theorem strip_ws_prepend (w z : List Char) (hw : ∀ c ∈ w, isWS c = true) :
    strip (w ++ z) = strip z := by
  unfold strip
  rw [dropWhile_append_nil (dropWhile_eq_nil_of_all hw) z]

theorem strip_ws_append (z w : List Char) (hw : ∀ c ∈ w, isWS c = true) :
    strip (z ++ w) = strip z := by
  rcases hz : z.dropWhile isWS with _ | ⟨d, ds⟩
  · unfold strip
    rw [dropWhile_append_nil hz w, dropWhile_eq_nil_of_all hw, hz]
  · unfold strip
    rw [dropWhile_append_cons hz w, hz]
    have hrev : (d :: (ds ++ w)).reverse = w.reverse ++ (d :: ds).reverse := by
      simp
    rw [hrev, dropWhile_append_nil (dropWhile_eq_nil_of_all
      (fun c hc => hw c (List.mem_reverse.mp hc))) ((d :: ds).reverse)]

theorem splitLinesAux_cons_nl (rest acc : List Char) :
    splitLinesAux ('\n' :: rest) acc = acc.reverse :: splitLinesAux rest [] := by
  simp [splitLinesAux]

theorem splitLinesAux_cons (c : Char) (hc : c ≠ '\n') (rest acc : List Char) :
    splitLinesAux (c :: rest) acc = splitLinesAux rest (c :: acc) := by
  simp [splitLinesAux, hc]

theorem splitLinesAux_shape (l : List Char) : ∃ h t,
    splitLinesAux l [] = h :: t ∧
    ∀ acc, splitLinesAux l acc = (acc.reverse ++ h) :: t := by
  induction l with
  | nil =>
    refine ⟨[], [], rfl, fun acc => ?_⟩
    simp [splitLinesAux]
  | cons c rest ih =>
    by_cases hc : c = '\n'
    · subst hc
      refine ⟨[], splitLinesAux rest [], ?_, fun acc => ?_⟩
      · rw [splitLinesAux_cons_nl]
        rfl
      · rw [splitLinesAux_cons_nl]
        simp
    · rcases ih with ⟨h, t, h1, h2⟩
      refine ⟨c :: h, t, ?_, fun acc => ?_⟩
      · rw [splitLinesAux_cons c hc, h2 [c]]
        simp
      · rw [splitLinesAux_cons c hc, h2 (c :: acc)]
        simp

theorem splitLinesAux_no_nl : ∀ (l acc : List Char), '\n' ∉ acc →
    ∀ t ∈ splitLinesAux l acc, '\n' ∉ t := by
  intro l
  induction l with
  | nil =>
    intro acc hacc t ht
    rw [show splitLinesAux [] acc = [acc.reverse] from rfl,
      List.mem_singleton] at ht
    subst ht
    simpa using hacc
  | cons c rest ih =>
    intro acc hacc t ht
    by_cases hc : c = '\n'
    · subst hc
      rw [splitLinesAux_cons_nl, List.mem_cons] at ht
      rcases ht with ht | ht
      · subst ht
        simpa using hacc
      · exact ih [] (List.not_mem_nil _) t ht
    · rw [splitLinesAux_cons c hc] at ht
      refine ih (c :: acc) ?_ t ht
      intro hmem
      rcases List.mem_cons.mp hmem with h | h
      · exact hc h.symm
      · exact hacc h

theorem splitLines_no_nl (text : List Char) :
    ∀ t ∈ splitLines text, '\n' ∉ t :=
  splitLinesAux_no_nl text [] (List.not_mem_nil _)

theorem splitLinesAux_append : ∀ (x rest acc : List Char), '\n' ∉ x →
    splitLinesAux (x ++ rest) acc = splitLinesAux rest (x.reverse ++ acc) := by
  intro x
  induction x with
  | nil =>
    intro rest acc _
    simp
  | cons c xs ih =>
    intro rest acc hx
    have hc : c ≠ '\n' := by
      rintro rfl
      exact hx (List.mem_cons_self _ _)
    rw [List.cons_append, splitLinesAux_cons c hc,
      ih rest (c :: acc) (fun h => hx (List.mem_cons_of_mem c h))]
    congr 1
    simp

theorem splitLines_single {t : List Char} (ht : '\n' ∉ t) :
    splitLines t = [t] := by
  have h1 : splitLinesAux (t ++ []) [] = splitLinesAux [] (t.reverse ++ []) :=
    splitLinesAux_append t [] [] ht
  rw [List.append_nil, List.append_nil] at h1
  unfold splitLines
  rw [h1]
  simp [splitLinesAux]

theorem splitLines_joinNl : ∀ {ls : List (List Char)}, ls ≠ [] →
    (∀ l ∈ ls, '\n' ∉ l) → splitLines (joinNl ls) = ls := by
  intro ls
  induction ls with
  | nil =>
    intro h
    exact absurd rfl h
  | cons t ts ih =>
    intro _ hnl
    cases ts with
    | nil => exact splitLines_single (hnl t (List.mem_cons_self _ _))
    | cons t' ts' =>
      show splitLines (t ++ '\n' :: joinNl (t' :: ts')) = t :: t' :: ts'
      unfold splitLines
      rw [splitLinesAux_append t ('\n' :: joinNl (t' :: ts')) []
          (hnl t (List.mem_cons_self _ _)),
        splitLinesAux_cons_nl, List.append_nil, List.reverse_reverse]
      have hrec := ih (by simp) (fun l hl => hnl l (List.mem_cons_of_mem _ hl))
      unfold splitLines at hrec
      rw [hrec]

theorem nbOf_cons (t : List Char) (ts : List (List Char)) :
    nbOf (t :: ts) =
      (if (strip t).isEmpty then [] else [strip t]) ++ nbOf ts := by
  unfold nbOf
  rw [List.map_cons]
  by_cases h : (strip t).isEmpty
  · rw [List.filter_cons_of_neg (by simp [h]), if_pos h, List.nil_append]
  · rw [List.filter_cons_of_pos (by simp [h]), if_neg h]
    rfl

theorem nbOf_blank_cons (ts : List (List Char)) : nbOf ([] :: ts) = nbOf ts :=
  rfl

theorem nbOf_append (a b : List (List Char)) :
    nbOf (a ++ b) = nbOf a ++ nbOf b := by
  unfold nbOf
  rw [List.map_append, List.filter_append]

theorem nbOf_splitLinesAux_acc_ws : ∀ (l acc w : List Char),
    (∀ c ∈ w, isWS c = true) →
    nbOf (splitLinesAux l (acc ++ w)) = nbOf (splitLinesAux l acc) := by
  intro l
  induction l with
  | nil =>
    intro acc w hw
    show nbOf [(acc ++ w).reverse] = nbOf [acc.reverse]
    rw [List.reverse_append,
      show nbOf [w.reverse ++ acc.reverse] =
        [strip (w.reverse ++ acc.reverse)].filter (fun t => ! t.isEmpty) from rfl,
      strip_ws_prepend w.reverse acc.reverse
        (fun c hc => hw c (List.mem_reverse.mp hc))]
    rfl
  | cons c rest ih =>
    intro acc w hw
    by_cases hc : c = '\n'
    · subst hc
      rw [splitLinesAux_cons_nl, splitLinesAux_cons_nl, nbOf_cons, nbOf_cons,
        List.reverse_append,
        strip_ws_prepend w.reverse acc.reverse
          (fun c hc => hw c (List.mem_reverse.mp hc))]
    · rw [splitLinesAux_cons c hc, splitLinesAux_cons c hc]
      exact ih (c :: acc) w hw

theorem nblines_cons_ws {c : Char} (hc : isWS c = true) (z : List Char) :
    nblines (c :: z) = nblines z := by
  by_cases hnl : c = '\n'
  · subst hnl
    unfold nblines splitLines
    rw [splitLinesAux_cons_nl, nbOf_cons]
    simp [strip]
  · unfold nblines splitLines
    rw [splitLinesAux_cons c hnl]
    exact nbOf_splitLinesAux_acc_ws z [] [c]
      (fun x hx => by rw [List.mem_singleton] at hx; rw [hx]; exact hc)

theorem nblines_ws_prepend : ∀ {w : List Char}, (∀ c ∈ w, isWS c = true) →
    ∀ z, nblines (w ++ z) = nblines z := by
  intro w
  induction w with
  | nil =>
    intro _ z
    rfl
  | cons c cs ih =>
    intro hw z
    rw [List.cons_append, nblines_cons_ws (hw c (List.mem_cons_self _ _)),
      ih (fun x hx => hw x (List.mem_cons_of_mem _ hx)) z]

theorem nbOf_splitLinesAux_concat_ws {c : Char} (hc : isWS c = true) :
    ∀ (y acc : List Char),
      nbOf (splitLinesAux (y ++ [c]) acc) = nbOf (splitLinesAux y acc) := by
  intro y
  induction y with
  | nil =>
    intro acc
    by_cases hnl : c = '\n'
    · subst hnl
      rw [List.nil_append, splitLinesAux_cons_nl,
        show (splitLinesAux [] [] : List (List Char)) = [[]] from rfl,
        show (splitLinesAux [] acc : List (List Char)) = [acc.reverse] from rfl,
        nbOf_cons, nbOf_blank_cons, nbOf_cons]
    · rw [List.nil_append, splitLinesAux_cons c hnl]
      rw [show splitLinesAux [] (c :: acc) = [(c :: acc).reverse] from rfl,
        show splitLinesAux [] acc = [acc.reverse] from rfl,
        List.reverse_cons,
        show nbOf [acc.reverse ++ [c]] =
          [strip (acc.reverse ++ [c])].filter (fun t => ! t.isEmpty) from rfl,
        strip_ws_append acc.reverse [c]
          (fun x hx => by rw [List.mem_singleton] at hx; rw [hx]; exact hc)]
      rfl
  | cons d ys ih =>
    intro acc
    by_cases hd : d = '\n'
    · subst hd
      rw [List.cons_append, splitLinesAux_cons_nl, splitLinesAux_cons_nl,
        nbOf_cons, nbOf_cons, ih []]
    · rw [List.cons_append, splitLinesAux_cons d hd, splitLinesAux_cons d hd,
        ih (d :: acc)]

theorem nblines_concat_ws {c : Char} (hc : isWS c = true) (y : List Char) :
    nblines (y ++ [c]) = nblines y :=
  nbOf_splitLinesAux_concat_ws hc y []

theorem nblines_dropWhile_reverse : ∀ r : List Char,
    nblines ((r.dropWhile isWS).reverse) = nblines r.reverse := by
  intro r
  induction r with
  | nil => rfl
  | cons c rs ih =>
    by_cases hc : isWS c
    · rw [List.dropWhile_cons_of_pos hc, ih, List.reverse_cons,
        nblines_concat_ws hc rs.reverse]
    · rw [List.dropWhile_cons_of_neg hc]

theorem nblines_strip (x : List Char) : nblines (strip x) = nblines x := by
  have hdw : nblines (x.dropWhile isWS) = nblines x := by
    have hws : ∀ c ∈ x.takeWhile isWS, isWS c = true :=
      fun c hc => List.mem_takeWhile_imp hc
    have h2 := nblines_ws_prepend hws (x.dropWhile isWS)
    rw [List.takeWhile_append_dropWhile] at h2
    exact h2.symm
  have h3 := nblines_dropWhile_reverse ((x.dropWhile isWS).reverse)
  rw [List.reverse_reverse] at h3
  calc nblines (strip x)
      = nblines (((x.dropWhile isWS).reverse.dropWhile isWS).reverse) := rfl
    _ = nblines (x.dropWhile isWS) := h3
    _ = nblines x := hdw

theorem nblines_joinNl {ls : List (List Char)}
    (hnl : ∀ l ∈ ls, '\n' ∉ l) : nblines (joinNl ls) = nbOf ls := by
  cases ls with
  | nil => rfl
  | cons t ts =>
    unfold nblines
    rw [splitLines_joinNl (by simp) hnl]

theorem nbOf_eq_nil_of_strip_joinNl {ls : List (List Char)}
    (h : strip (joinNl ls) = []) : nbOf ls = [] := by
  have hws : ∀ c ∈ joinNl ls, isWS c = true := strip_eq_nil_iff.mp h
  unfold nbOf
  rw [List.filter_eq_nil_iff]
  intro t ht
  rw [List.mem_map] at ht
  rcases ht with ⟨l, hl, rfl⟩
  have hs : strip l = [] :=
    strip_eq_nil_iff.mpr (fun c hc => hws c (mem_joinNl hl hc))
  simp [hs]

theorem nblines_strip_line {line : List Char} (hnl : '\n' ∉ line) :
    (if strip line ≠ [] then nblines (strip line) else []) = nbOf [line] := by
  have hnl2 : '\n' ∉ strip line := fun h => hnl ((strip_sublist line).subset h)
  by_cases h : strip line = []
  · rw [if_neg (by simpa using h)]
    unfold nbOf
    simp [h]
  · rw [if_pos h]
    unfold nblines
    rw [splitLines_single hnl2]
    unfold nbOf
    simp [strip_idem, h]

theorem drop_decomp {α : Type} (lines : List α) (cs idx next : Nat)
    (h1 : cs ≤ idx) (h2 : idx < lines.length) (h3 : idx < next)
    (h4 : next ≤ lines.length) :
    lines.drop cs =
      (lines.drop cs).take (idx - cs) ++
        lines[idx] ::
          ((lines.drop (idx + 1)).take (next - (idx + 1)) ++
            lines.drop next) := by
  have e2 : (lines.drop cs).drop (idx - cs) = lines.drop idx := by
    rw [List.drop_drop]
    congr 1
    omega
  have e3 : lines.drop idx = lines[idx] :: lines.drop (idx + 1) :=
    List.drop_eq_getElem_cons h2
  have e4 : lines.drop (idx + 1) =
      (lines.drop (idx + 1)).take (next - (idx + 1)) ++ lines.drop next := by
    have e := (List.take_append_drop (next - (idx + 1))
      (lines.drop (idx + 1))).symm
    rw [List.drop_drop] at e
    have hn : idx + 1 + (next - (idx + 1)) = next := by omega
    rw [hn] at e
    exact e
  conv_lhs => rw [← List.take_append_drop (idx - cs) (lines.drop cs)]
  rw [e2, e3]
  conv_lhs => rw [e4]

theorem find_gt_sorted : ∀ (pre : List Nat) (idx : Nat) (rest : List Nat),
    (pre ++ idx :: rest).Pairwise (· < ·) →
    (pre ++ idx :: rest).find? (fun j => decide (idx < j)) = rest.head? := by
  intro pre
  induction pre with
  | nil =>
    intro idx rest hpw
    rw [List.nil_append, List.find?_cons_of_neg _ (by simp)]
    cases rest with
    | nil => rfl
    | cons r rs =>
      rw [List.find?_cons_of_pos _ (by
        simp
        exact (List.pairwise_cons.mp hpw).1 r (List.mem_cons_self _ _))]
      rfl
  | cons a pre' ih =>
    intro idx rest hpw
    rw [List.cons_append] at hpw ⊢
    have hm := List.pairwise_cons.mp hpw
    rw [List.find?_cons_of_neg _ (by
      have ha := hm.1 idx (by
        rw [List.mem_append]
        right
        exact List.mem_cons_self _ _)
      simp
      omega)]
    exact ih idx rest hm.2

theorem chapterIndices_pairwise (lines : List (List Char)) :
    (chapterIndices lines).Pairwise (· < ·) :=
  List.Pairwise.sublist (List.filter_sublist _)
    (List.pairwise_lt_range _)

theorem chapterIndices_lt (lines : List (List Char)) :
    ∀ i ∈ chapterIndices lines, i < lines.length := by
  intro i hi
  unfold chapterIndices at hi
  exact List.mem_range.mp (List.mem_of_mem_filter hi)

theorem buildSections_cons (lines : List (List Char)) (allIdx : List Nat)
    (cs idx : Nat) (rest : List Nat) :
    buildSections lines allIdx cs (idx :: rest) =
      (if cs < idx then
        (if strip (joinNl ((lines.drop cs).take (idx - cs))) ≠ [] then
          [⟨strip (joinNl ((lines.drop cs).take (idx - cs))), false⟩] else [])
      else []) ++
      (if strip (lines.getD idx []) ≠ [] then
        [⟨strip (lines.getD idx []), true⟩] else []) ++
      (if idx + 1 < (allIdx.find? (fun j => decide (idx < j))).getD lines.length
       then
        (if strip (joinNl ((lines.drop (idx + 1)).take
            ((allIdx.find? (fun j => decide (idx < j))).getD lines.length -
              (idx + 1)))) ≠ [] then
          [⟨strip (joinNl ((lines.drop (idx + 1)).take
            ((allIdx.find? (fun j => decide (idx < j))).getD lines.length -
              (idx + 1)))), false⟩]
         else [])
      else []) ++
      buildSections lines allIdx
        ((allIdx.find? (fun j => decide (idx < j))).getD lines.length) rest :=
  rfl

theorem buildSections_nbl (lines : List (List Char))
    (hln : ∀ l ∈ lines, '\n' ∉ l) (allIdx : List Nat)
    (hpw : allIdx.Pairwise (· < ·))
    (hbd : ∀ i ∈ allIdx, i < lines.length) :
    ∀ (suffix pre : List Nat), allIdx = pre ++ suffix → ∀ cs : Nat,
      (suffix = [] → cs = lines.length) →
      (∀ i r, suffix = i :: r → cs ≤ i) →
      (buildSections lines allIdx cs suffix).flatMap (fun s => nblines s.text)
        = nbOf (lines.drop cs) := by
  intro suffix
  induction suffix with
  | nil =>
    intro pre hsplit cs hnil hcons
    rw [hnil rfl, List.drop_length]
    rfl
  | cons idx rest ih =>
    intro pre hsplit cs hnil hcons
    have hcsidx : cs ≤ idx := hcons idx rest rfl
    have hidxmem : idx ∈ allIdx := by
      rw [hsplit, List.mem_append]
      right
      exact List.mem_cons_self _ _
    have hidxlt : idx < lines.length := hbd idx hidxmem
    have hpw2 := hpw
    rw [hsplit] at hpw2
    have hfind : allIdx.find? (fun j => decide (idx < j)) = rest.head? := by
      rw [hsplit]
      exact find_gt_sorted pre idx rest hpw2
    have hnextle : (rest.head?).getD lines.length ≤ lines.length := by
      cases rest with
      | nil => simp
      | cons r rs =>
        simp only [List.head?_cons, Option.getD_some]
        exact le_of_lt (hbd r (by
          rw [hsplit, List.mem_append]
          right
          exact List.mem_cons_of_mem _ (List.mem_cons_self _ _)))
    have hidxnext : idx < (rest.head?).getD lines.length := by
      cases rest with
      | nil => simpa using hidxlt
      | cons r rs =>
        have hlt : idx < r := by
          have h2 := (List.pairwise_append.mp hpw2).2.1
          exact (List.pairwise_cons.mp h2).1 r (List.mem_cons_self _ _)
        simpa using hlt
    have hrec := ih (pre ++ [idx])
      (by rw [hsplit, List.append_assoc]; rfl)
      ((rest.head?).getD lines.length)
      (fun h => by rw [h]; rfl)
      (fun i r h => by rw [h]; simp)
    have hA : (if cs < idx then
        (if strip (joinNl ((lines.drop cs).take (idx - cs))) ≠ [] then
          [(⟨strip (joinNl ((lines.drop cs).take (idx - cs))), false⟩ :
            TextSection)] else [])
      else []).flatMap (fun s => nblines s.text)
        = nbOf ((lines.drop cs).take (idx - cs)) := by
      have hsl : ∀ l ∈ (lines.drop cs).take (idx - cs), '\n' ∉ l :=
        fun l hl => hln l
          (((List.take_sublist _ _).trans (List.drop_sublist _ _)).subset hl)
      by_cases hlt : cs < idx
      · rw [if_pos hlt]
        by_cases ht : strip (joinNl ((lines.drop cs).take (idx - cs))) = []
        · rw [if_neg (by simpa using ht)]
          exact (nbOf_eq_nil_of_strip_joinNl ht).symm
        · rw [if_pos ht]
          have hsing : [(⟨strip (joinNl ((lines.drop cs).take (idx - cs))),
              false⟩ : TextSection)].flatMap (fun s => nblines s.text)
              = nblines (strip (joinNl ((lines.drop cs).take (idx - cs)))) := by
            simp
          rw [hsing, nblines_strip, nblines_joinNl hsl]
      · rw [if_neg hlt]
        have hz : idx - cs = 0 := by omega
        rw [hz, List.take_zero]
        rfl
    have hT : (if strip (lines.getD idx []) ≠ [] then
        [(⟨strip (lines.getD idx []), true⟩ : TextSection)] else []).flatMap
          (fun s => nblines s.text)
        = if (strip lines[idx]).isEmpty then [] else [strip lines[idx]] := by
      rw [List.getD_eq_getElem lines [] hidxlt]
      have hline : '\n' ∉ lines[idx] :=
        hln lines[idx] (List.getElem_mem hidxlt)
      by_cases ht : strip lines[idx] = []
      · rw [if_neg (by simpa using ht), if_pos (by simp [ht])]
        rfl
      · rw [if_pos ht, if_neg (by simp [ht])]
        have h2 : nblines (strip lines[idx]) = nbOf [lines[idx]] := by
          have h3 := nblines_strip_line hline
          rw [if_pos ht] at h3
          exact h3
        have h4 : nbOf [lines[idx]] = [strip lines[idx]] := by
          unfold nbOf
          simp [ht]
        simp [h2, h4]
    have hC : (if idx + 1 < (rest.head?).getD lines.length then
        (if strip (joinNl ((lines.drop (idx + 1)).take
            ((rest.head?).getD lines.length - (idx + 1)))) ≠ [] then
          [(⟨strip (joinNl ((lines.drop (idx + 1)).take
            ((rest.head?).getD lines.length - (idx + 1)))), false⟩ :
            TextSection)]
         else [])
      else []).flatMap (fun s => nblines s.text)
        = nbOf ((lines.drop (idx + 1)).take
            ((rest.head?).getD lines.length - (idx + 1))) := by
      have hsl : ∀ l ∈ (lines.drop (idx + 1)).take
          ((rest.head?).getD lines.length - (idx + 1)), '\n' ∉ l :=
        fun l hl => hln l
          (((List.take_sublist _ _).trans (List.drop_sublist _ _)).subset hl)
      by_cases hlt : idx + 1 < (rest.head?).getD lines.length
      · rw [if_pos hlt]
        by_cases ht : strip (joinNl ((lines.drop (idx + 1)).take
            ((rest.head?).getD lines.length - (idx + 1)))) = []
        · rw [if_neg (by simpa using ht)]
          exact (nbOf_eq_nil_of_strip_joinNl ht).symm
        · rw [if_pos ht]
          have hsing : [(⟨strip (joinNl ((lines.drop (idx + 1)).take
              ((rest.head?).getD lines.length - (idx + 1)))), false⟩ :
              TextSection)].flatMap (fun s => nblines s.text)
              = nblines (strip (joinNl ((lines.drop (idx + 1)).take
                ((rest.head?).getD lines.length - (idx + 1))))) := by
            simp
          rw [hsing, nblines_strip, nblines_joinNl hsl]
      · rw [if_neg hlt]
        have hz : (rest.head?).getD lines.length - (idx + 1) = 0 := by omega
        rw [hz, List.take_zero]
        rfl
    rw [buildSections_cons, hfind, List.flatMap_append, List.flatMap_append,
      List.flatMap_append, hA, hT, hC, hrec]
    conv_rhs => rw [drop_decomp lines cs idx ((rest.head?).getD lines.length)
      hcsidx hidxlt hidxnext hnextle]
    rw [nbOf_append, nbOf_cons, nbOf_append]
    simp [List.append_assoc]

theorem buildSections_title_mem (lines : List (List Char)) (allIdx : List Nat) :
    ∀ (suffix : List Nat) (cs : Nat),
      (∀ i ∈ suffix, i < lines.length) →
      ∀ s ∈ buildSections lines allIdx cs suffix, s.is_chapter_title = true →
        ∃ line ∈ lines, s.text = strip line ∧ s.text ≠ [] := by
  intro suffix
  induction suffix with
  | nil =>
    intro cs _ s hs
    cases hs
  | cons idx rest ih =>
    intro cs hbd s hs htitle
    rw [buildSections_cons, List.mem_append, List.mem_append,
      List.mem_append] at hs
    rcases hs with ((hP | hT) | hC) | hB
    · exfalso
      split_ifs at hP with h1 h2
      · rw [List.mem_singleton] at hP
        subst hP
        simpa using htitle
      · cases hP
      · cases hP
    · split_ifs at hT with h1
      · rw [List.mem_singleton] at hT
        subst hT
        have hlt := hbd idx (List.mem_cons_self _ _)
        refine ⟨lines.getD idx [], ?_, rfl, h1⟩
        rw [List.getD_eq_getElem lines [] hlt]
        exact List.getElem_mem hlt
      · cases hT
    · exfalso
      split_ifs at hC with h1 h2
      · rw [List.mem_singleton] at hC
        subst hC
        simpa using htitle
      · cases hC
      · cases hC
    · exact ih _ (fun i hi => hbd i (List.mem_cons_of_mem _ hi)) s hB htitle

/-- **C6.**  The sections returned by `detect_chapters` appear in document
order and partition the document's non-blank lines: concatenating, in output
order, the trimmed non-blank lines of each section's text yields exactly the
trimmed non-blank lines of the input, in document order — so every non-blank
line of the document appears in exactly one section.  Moreover every section
with `is_chapter_title = true` is exactly one trimmed line: its text contains
no newline, is its own trim, and is non-empty. -/
theorem c6_partition (text : List Char) :
    ((detect_chapters text).flatMap (fun s => nblines s.text)
      = nblines text) ∧
    (∀ s ∈ detect_chapters text, s.is_chapter_title = true →
      ('\n' ∉ s.text ∧ strip s.text = s.text ∧ s.text ≠ [])) := by
  constructor
  · unfold detect_chapters
    dsimp only
    by_cases hidx : chapterIndices (splitLines text) = []
    · rw [if_pos hidx]
      simp
    · rw [if_neg hidx]
      have h := buildSections_nbl (splitLines text) (splitLines_no_nl text)
        (chapterIndices (splitLines text)) (chapterIndices_pairwise _)
        (chapterIndices_lt _) (chapterIndices (splitLines text)) []
        rfl 0 (fun hc => absurd hc hidx) (fun i r _ => Nat.zero_le i)
      rw [List.drop_zero] at h
      rw [h]
      rfl
  · intro s hs htitle
    unfold detect_chapters at hs
    dsimp only at hs
    by_cases hidx : chapterIndices (splitLines text) = []
    · rw [if_pos hidx, List.mem_singleton] at hs
      subst hs
      simp at htitle
    · rw [if_neg hidx] at hs
      obtain ⟨line, hline, htext, hne⟩ :=
        buildSections_title_mem (splitLines text)
          (chapterIndices (splitLines text))
          (chapterIndices (splitLines text)) 0
          (fun i hi => chapterIndices_lt _ i hi) s hs htitle
      refine ⟨?_, ?_, hne⟩
      · rw [htext]
        exact fun h =>
          splitLines_no_nl text line hline ((strip_sublist line).subset h)
      · rw [htext, strip_idem]

/-! ## C1: chunk lengths -/

theorem isWS_false_of_punct {c : Char} (h : isPunct3 (some c) = true) :
    isWS c = false := by
  have h2 : (c = '.' ∨ c = '!') ∨ c = '?' := by
    unfold isPunct3 at h
    simpa using h
  rcases h2 with (rfl | rfl) | rfl <;> decide

theorem strip_eq_self {l : List Char}
    (h1 : ∀ c, l.head? = some c → isWS c = false)
    (h2 : ∀ c, l.getLast? = some c → isWS c = false) : strip l = l := by
  have d1 : l.dropWhile isWS = l := dropWhile_eq_self_of_head h1
  have d2 : l.reverse.dropWhile isWS = l.reverse :=
    dropWhile_eq_self_of_head
      (fun c hc => h2 c (by rwa [List.head?_reverse] at hc))
  unfold strip
  rw [d1, d2, List.reverse_reverse]

theorem sentAux_tokens : ∀ (l : List Char),
    ((∀ (prev : Option Char) (acc : List Char), acc ≠ [] →
      (∀ c, acc.getLast? = some c → isWS c = false) →
      (∀ c, (acc.reverse ++ l).getLast? = some c → isWS c = false) →
      prev = acc.head? →
      ∀ tok ∈ sentAux false prev acc l,
        tok ≠ [] ∧ (∀ c, tok.head? = some c → isWS c = false) ∧
          (∀ c, tok.getLast? = some c → isWS c = false)) ∧
    (l ≠ [] →
      (∀ c, l.getLast? = some c → isWS c = false) →
      ∀ tok ∈ sentAux true none [] l,
        tok ≠ [] ∧ (∀ c, tok.head? = some c → isWS c = false) ∧
          (∀ c, tok.getLast? = some c → isWS c = false))) := by
  intro l
  induction l with
  | nil =>
    constructor
    · intro prev acc hacc hstart hjoint hprev tok htok
      rw [show sentAux false prev acc [] = [acc.reverse] from rfl,
        List.mem_singleton] at htok
      subst htok
      refine ⟨by simpa using hacc, ?_, ?_⟩
      · intro c hc
        rw [List.head?_reverse] at hc
        exact hstart c hc
      · intro c hc
        rw [List.append_nil] at hjoint
        exact hjoint c hc
    · intro h
      exact absurd rfl h
  | cons c rest ih =>
    constructor
    · intro prev acc hacc hstart hjoint hprev tok htok
      rw [show sentAux false prev acc (c :: rest) =
        if isPunct3 prev && isWS c then
          acc.reverse :: sentAux true none [] rest
        else sentAux false (some c) (c :: acc) rest from rfl] at htok
      by_cases hcond : (isPunct3 prev && isWS c) = true
      · rw [if_pos hcond, List.mem_cons] at htok
        have hand : isPunct3 prev = true ∧ isWS c = true := by
          simpa using hcond
        have hwsc : isWS c = true := hand.2
        have hpunct : isPunct3 prev = true := hand.1
        rcases htok with rfl | htok
        · refine ⟨by simpa using hacc, ?_, ?_⟩
          · intro d hd
            rw [List.head?_reverse] at hd
            exact hstart d hd
          · intro d hd
            rw [List.getLast?_reverse] at hd
            rw [hprev, hd] at hpunct
            exact isWS_false_of_punct hpunct
        · have hrestne : rest ≠ [] := by
            rintro rfl
            have hws0 := hjoint c (by rw [List.getLast?_concat])
            rw [hwsc] at hws0
            exact Bool.noConfusion hws0
          have hrestlast : ∀ d, rest.getLast? = some d → isWS d = false := by
            intro d hd
            refine hjoint d ?_
            rw [List.getLast?_append_of_ne_nil _ (by simp : (c :: rest) ≠ []),
              show (c :: rest) = [c] ++ rest from rfl,
              List.getLast?_append_of_ne_nil _ hrestne]
            exact hd
          exact ih.2 hrestne hrestlast tok htok
      · rw [if_neg hcond] at htok
        refine ih.1 (some c) (c :: acc) (by simp) ?_ ?_ rfl tok htok
        · intro d hd
          rw [show (c :: acc) = [c] ++ acc from rfl,
            List.getLast?_append_of_ne_nil _ hacc] at hd
          exact hstart d hd
        · intro d hd
          refine hjoint d ?_
          rw [show ((c :: acc).reverse ++ rest) = acc.reverse ++ (c :: rest)
              from by rw [List.reverse_cons, List.append_assoc]; rfl] at hd
          exact hd
    · intro hne hlast tok htok
      rw [show sentAux true none [] (c :: rest) =
        if isWS c then sentAux true none [] rest
        else sentAux false (some c) [c] rest from rfl] at htok
      by_cases hws : isWS c = true
      · rw [if_pos hws] at htok
        have hrestne : rest ≠ [] := by
          rintro rfl
          have hws0 := hlast c (by simp)
          rw [hws] at hws0
          exact Bool.noConfusion hws0
        have hrestlast : ∀ d, rest.getLast? = some d → isWS d = false := by
          intro d hd
          refine hlast d ?_
          rw [show (c :: rest) = [c] ++ rest from rfl,
            List.getLast?_append_of_ne_nil _ hrestne]
          exact hd
        exact ih.2 hrestne hrestlast tok htok
      · rw [if_neg hws] at htok
        refine ih.1 (some c) [c] (by simp) ?_ ?_ rfl tok htok
        · intro d hd
          have hdc : c = d := by simpa using hd
          subst hdc
          simpa using hws
        · intro d hd
          refine hlast d ?_
          rw [show (([c] : List Char).reverse ++ rest) = c :: rest from rfl]
            at hd
          exact hd

theorem splitSentences_tokens {p : List Char} (hp : strip p = p)
    (hne : p ≠ []) :
    ∀ tok ∈ splitSentences p,
      tok ≠ [] ∧ (∀ c, tok.head? = some c → isWS c = false) ∧
        (∀ c, tok.getLast? = some c → isWS c = false) := by
  obtain ⟨c, rest, rfl⟩ : ∃ c rest, p = c :: rest := by
    cases p with
    | nil => exact absurd rfl hne
    | cons c rest => exact ⟨c, rest, rfl⟩
  intro tok htok
  have hh : (strip (c :: rest)).head? = some c := by
    rw [hp]
    rfl
  have hhead : isWS c = false := strip_head_not_ws hh
  have hlast : ∀ d, (c :: rest).getLast? = some d → isWS d = false := by
    intro d hd
    refine @strip_getLast_not_ws (c :: rest) d ?_
    rw [hp]
    exact hd
  have hstep : splitSentences (c :: rest) = sentAux false (some c) [c] rest := by
    rw [show splitSentences (c :: rest) =
      if isPunct3 none && isWS c then
        ([] : List Char).reverse :: sentAux true none [] rest
      else sentAux false (some c) [c] rest from rfl]
    simp [isPunct3]
  rw [hstep] at htok
  refine (sentAux_tokens rest).1 (some c) [c] (by simp) ?_ ?_ rfl tok htok
  · intro d hd
    have hdc : c = d := by simpa using hd
    subst hdc
    exact hhead
  · intro d hd
    refine hlast d ?_
    rw [show (([c] : List Char).reverse ++ rest) = c :: rest from rfl] at hd
    exact hd

theorem foldl_invariant {α β : Type} (f : β → α → β) (P : β → Prop) :
    ∀ (l : List α) (b : β), (∀ b' a, a ∈ l → P b' → P (f b' a)) → P b →
      P (l.foldl f b) := by
  intro l
  induction l with
  | nil =>
    intro b _ hb
    exact hb
  | cons a t ih =>
    intro b hstep hb
    exact ih (f b a)
      (fun b' a' ha' hb' => hstep b' a' (List.mem_cons_of_mem _ ha') hb')
      (hstep b a (List.mem_cons_self _ _) hb)

theorem buildChunksAux_inv (max : Nat) (G : List Char → Prop)
    (hshort : ∀ c : List Char, c.length ≤ max → G c)
    (T : List (List Char))
    (hT : ∀ s ∈ T,
      ((∀ d, s.head? = some d → isWS d = false) ∧
       (∀ d, s.getLast? = some d → isWS d = false)) ∧ G s) :
    ∀ (ss : List (List Char)), (∀ s ∈ ss, s ∈ T) →
    ∀ (chunks : List (List Char)), (∀ c ∈ chunks, G c) →
    ∀ (cur : List Char), (cur = [] ∨ cur ∈ T ∨ cur.length ≤ max) →
    ∀ c ∈ buildChunksAux max ss chunks cur, G c := by
  have hflush : ∀ cur : List Char,
      (cur = [] ∨ cur ∈ T ∨ cur.length ≤ max) → G (strip cur) := by
    intro cur hcur
    rcases hcur with rfl | hmem | hlen
    · exact hshort _ (by simp [strip])
    · rw [strip_eq_self ((hT cur hmem).1).1 ((hT cur hmem).1).2]
      exact (hT cur hmem).2
    · exact hshort _ (le_trans (strip_length_le cur) hlen)
  intro ss
  induction ss with
  | nil =>
    intro _ chunks hchunks cur hcur c hc
    rw [show buildChunksAux max [] chunks cur =
      if strip cur ≠ [] then chunks ++ [strip cur] else chunks from rfl] at hc
    split_ifs at hc with h1
    · rcases List.mem_append.mp hc with h | h
      · exact hchunks c h
      · rw [List.mem_singleton] at h
        subst h
        exact hflush cur hcur
    · exact hchunks c hc
  | cons s ss' ih =>
    intro hss chunks hchunks cur hcur c hc
    rw [show buildChunksAux max (s :: ss') chunks cur =
      if cur ≠ [] ∧ max < cur.length + 1 + s.length then
        buildChunksAux max ss' (chunks ++ [strip cur]) s
      else buildChunksAux max ss' chunks
        (if cur = [] then s else cur ++ (' ' :: s)) from rfl] at hc
    have hsT : s ∈ T := hss s (List.mem_cons_self _ _)
    have hss' : ∀ x ∈ ss', x ∈ T :=
      fun x hx => hss x (List.mem_cons_of_mem _ hx)
    split_ifs at hc with h1 h2
    · refine ih hss' (chunks ++ [strip cur]) ?_ s (Or.inr (Or.inl hsT)) c hc
      intro x hx
      rcases List.mem_append.mp hx with h | h
      · exact hchunks x h
      · rw [List.mem_singleton] at h
        subst h
        exact hflush cur hcur
    · exact ih hss' chunks hchunks s (Or.inr (Or.inl hsT)) c hc
    · refine ih hss' chunks hchunks _ ?_ c hc
      right
      right
      have h3 : ¬ max < cur.length + 1 + s.length := fun hlt => h1 ⟨h2, hlt⟩
      rw [List.length_append, List.length_cons]
      omega

/-- **C1.**  With a positive `max_length`, every chunk `smart_text_split`
returns either fits in `max_length` characters, or is over-long but then is a
single sentence of the input (a whole, unmodified element of the sentence
split of a trimmed paragraph). -/
theorem c1_chunk_length (text : List Char) (max_length : Nat)
    (hmax : 0 < max_length) :
    ∀ c ∈ smart_text_split text max_length,
      c.length ≤ max_length ∨
      (max_length < c.length ∧
        ∃ p ∈ splitParas text, c ∈ splitSentences (strip p)) := by
  unfold smart_text_split
  refine foldl_invariant _
    (fun chunks => ∀ c ∈ chunks,
      c.length ≤ max_length ∨
      (max_length < c.length ∧
        ∃ p ∈ splitParas text, c ∈ splitSentences (strip p)))
    (splitParas text) [] ?_ ?_
  · intro chunks para hpara hchunks
    dsimp only
    by_cases h0 : strip para = []
    · rw [if_pos h0]
      exact hchunks
    · rw [if_neg h0]
      by_cases h1 : (strip para).length ≤ max_length
      · rw [if_pos h1]
        intro c hc
        rcases List.mem_append.mp hc with h | h
        · exact hchunks c h
        · rw [List.mem_singleton] at h
          subst h
          exact Or.inl h1
      · rw [if_neg h1]
        refine buildChunksAux_inv max_length _
          (fun c hlen => Or.inl hlen)
          (splitSentences (strip para)) ?_ (splitSentences (strip para))
          (fun s hs => hs) chunks hchunks [] (Or.inl rfl)
        intro s hs
        have htoks := splitSentences_tokens (strip_idem para) h0 s hs
        refine ⟨⟨htoks.2.1, htoks.2.2⟩, ?_⟩
        by_cases h2 : s.length ≤ max_length
        · exact Or.inl h2
        · exact Or.inr ⟨by omega, para, hpara, hs⟩
  · intro c hc
    cases hc

/-- **C1, witness**: the concrete text `Hi there. Bye.` under the default
chunk bound. -/
theorem c1_chunk_length_witness :
    0 < 300 ∧
    ∀ c ∈ smart_text_split (("Hi there. Bye.").toList) 300,
      c.length ≤ 300 ∨
      (300 < c.length ∧
        ∃ p ∈ splitParas (("Hi there. Bye.").toList),
          c ∈ splitSentences (strip p)) :=
  ⟨by decide, c1_chunk_length (("Hi there. Bye.").toList) 300 (by decide)⟩

/-! ## C2: whitespace-normalized reconstruction -/

theorem visChars_append (a b : List Char) :
    visChars (a ++ b) = visChars a ++ visChars b := by
  unfold visChars
  rw [List.filter_append]

theorem visChars_cons_of_ws {c : Char} (h : isWS c = true) (l : List Char) :
    visChars (c :: l) = visChars l := by
  unfold visChars
  rw [List.filter_cons_of_neg (by simp [h])]

theorem visChars_eq_nil_of_all_ws {l : List Char}
    (h : ∀ c ∈ l, isWS c = true) : visChars l = [] := by
  unfold visChars
  rw [List.filter_eq_nil_iff]
  intro c hc
  simp [h c hc]

theorem visChars_strip (l : List Char) : visChars (strip l) = visChars l :=
  filter_strip l

theorem take_all_ws {p : Char → Bool} : ∀ (l : List Char) (j : Nat),
    j ≤ (l.takeWhile p).length → ∀ c ∈ l.take j, p c = true := by
  intro l
  induction l with
  | nil =>
    intro j _ c hc
    rw [List.take_nil] at hc
    cases hc
  | cons a t ih =>
    intro j hj c hc
    by_cases hp : p a
    · rw [List.takeWhile_cons_of_pos hp] at hj
      cases j with
      | zero =>
        rw [List.take_zero] at hc
        cases hc
      | succ j' =>
        rw [List.take_succ_cons, List.mem_cons] at hc
        rcases hc with rfl | hc
        · exact hp
        · exact ih j' (by simpa using hj) c hc
    · rw [List.takeWhile_cons_of_neg hp] at hj
      have : j = 0 := by simpa using hj
      subst this
      rw [List.take_zero] at hc
      cases hc

theorem lastNlIdx_lt : ∀ (l : List Char) (k : Nat),
    lastNlIdx l = some k → k < l.length := by
  intro l
  induction l with
  | nil =>
    intro k hk
    cases hk
  | cons c cs ih =>
    intro k hk
    rw [show lastNlIdx (c :: cs) =
      (match lastNlIdx cs with
      | some k' => some (k' + 1)
      | none => if c = '\n' then some 0 else none) from rfl] at hk
    cases hrec : lastNlIdx cs with
    | some k' =>
      rw [hrec] at hk
      injection hk with hk2
      subst hk2
      have h3 := ih k' hrec
      simp only [List.length_cons]
      omega
    | none =>
      rw [hrec] at hk
      split_ifs at hk
      · injection hk with hk2
        subst hk2
        simp only [List.length_cons]
        omega

theorem paraSepLen_some {c : Char} {rest : List Char} {n : Nat}
    (h : paraSepLen (c :: rest) = some n) :
    c = '\n' ∧ ∃ k, lastNlIdx (rest.takeWhile isWS) = some k ∧ n = k + 2 := by
  rw [show paraSepLen (c :: rest) =
    (if c = '\n' then
      match lastNlIdx (rest.takeWhile isWS) with
      | some k => some (k + 2)
      | none => none
    else none) from rfl] at h
  by_cases hc : c = '\n'
  · rw [if_pos hc] at h
    cases hlk : lastNlIdx (rest.takeWhile isWS) with
    | none =>
      rw [hlk] at h
      cases h
    | some k =>
      rw [hlk] at h
      refine ⟨hc, k, rfl, ?_⟩
      injection h with h2
      omega
  · rw [if_neg hc] at h
    cases h

theorem paraAux_visChars : ∀ (fuel : Nat) (l acc : List Char),
    l.length ≤ fuel →
    ((paraAux fuel l acc).map visChars).flatten
      = visChars acc.reverse ++ visChars l := by
  intro fuel
  induction fuel with
  | zero =>
    intro l acc hl
    have hnil : l = [] := by
      cases l with
      | nil => rfl
      | cons c cs => simp at hl
    subst hnil
    show (([acc.reverse]).map visChars).flatten
      = visChars acc.reverse ++ visChars []
    simp [visChars]
  | succ fuel ih =>
    intro l acc hl
    cases l with
    | nil =>
      show (([acc.reverse]).map visChars).flatten
        = visChars acc.reverse ++ visChars []
      simp [visChars]
    | cons c rest =>
      rw [show paraAux (fuel + 1) (c :: rest) acc =
        (match paraSepLen (c :: rest) with
        | some n => acc.reverse :: paraAux fuel (List.drop n (c :: rest)) []
        | none => paraAux fuel rest (c :: acc)) from rfl]
      cases hsep : paraSepLen (c :: rest) with
      | none =>
        rw [ih rest (c :: acc) (by simpa using hl), List.reverse_cons,
          visChars_append, List.append_assoc]
        congr 1
        rw [show visChars (c :: rest) = visChars ([c] ++ rest) from rfl,
          visChars_append]
      | some n =>
        obtain ⟨hc, k, hk, rfl⟩ := paraSepLen_some hsep
        subst hc
        rw [List.map_cons, List.flatten_cons,
          ih (List.drop (k + 2) ('\n' :: rest)) []
            (by rw [List.length_drop]; simp at hl ⊢; omega)]
        have htake : ∀ x ∈ List.take (k + 2) ('\n' :: rest), isWS x = true := by
          intro x hx
          rw [List.take_succ_cons, List.mem_cons] at hx
          rcases hx with rfl | hx
          · decide
          · have hkl := lastNlIdx_lt _ _ hk
            exact take_all_ws rest (k + 1) (by omega) x hx
        conv_rhs =>
          rw [show ('\n' :: rest) =
            List.take (k + 2) ('\n' :: rest) ++ List.drop (k + 2) ('\n' :: rest)
            from (List.take_append_drop _ _).symm]
        rw [visChars_append, visChars_eq_nil_of_all_ws htake]
        simp [visChars]

theorem splitParas_visChars (text : List Char) :
    ((splitParas text).map visChars).flatten = visChars text := by
  unfold splitParas
  rw [paraAux_visChars text.length text [] (le_refl _)]
  rfl

theorem sentAux_visChars : ∀ (l : List Char),
    (∀ (prev : Option Char) (acc : List Char),
      ((sentAux false prev acc l).map visChars).flatten
        = visChars acc.reverse ++ visChars l) ∧
    (((sentAux true none [] l).map visChars).flatten = visChars l) := by
  intro l
  induction l with
  | nil =>
    constructor
    · intro prev acc
      show (([acc.reverse]).map visChars).flatten
        = visChars acc.reverse ++ visChars []
      simp [visChars]
    · show (([([] : List Char)]).map visChars).flatten = visChars []
      simp [visChars]
  | cons c rest ih =>
    constructor
    · intro prev acc
      rw [show sentAux false prev acc (c :: rest) =
        if isPunct3 prev && isWS c then
          acc.reverse :: sentAux true none [] rest
        else sentAux false (some c) (c :: acc) rest from rfl]
      by_cases hcond : (isPunct3 prev && isWS c) = true
      · rw [if_pos hcond]
        have hand : isPunct3 prev = true ∧ isWS c = true := by
          simpa using hcond
        rw [List.map_cons, List.flatten_cons, ih.2,
          visChars_cons_of_ws hand.2]
      · rw [if_neg hcond, ih.1 (some c) (c :: acc), List.reverse_cons,
          visChars_append, List.append_assoc]
        congr 1
        rw [show visChars (c :: rest) = visChars ([c] ++ rest) from rfl,
          visChars_append]
    · rw [show sentAux true none [] (c :: rest) =
        if isWS c then sentAux true none [] rest
        else sentAux false (some c) [c] rest from rfl]
      by_cases hws : isWS c = true
      · rw [if_pos hws, ih.2, visChars_cons_of_ws hws]
      · rw [if_neg hws, ih.1 (some c) [c],
          show (([c] : List Char)).reverse = [c] from rfl,
          show visChars (c :: rest) = visChars ([c] ++ rest) from rfl,
          visChars_append]

theorem splitSentences_visChars (p : List Char) :
    ((splitSentences p).map visChars).flatten = visChars p := by
  unfold splitSentences
  rw [(sentAux_visChars p).1 none []]
  rfl

theorem sentAux_ne_nil : ∀ (l : List Char) (mode : Bool) (prev : Option Char)
    (acc : List Char), sentAux mode prev acc l ≠ [] := by
  intro l
  induction l with
  | nil =>
    intro mode prev acc
    cases mode
    · exact List.cons_ne_nil _ _
    · exact List.cons_ne_nil _ _
  | cons c rest ih =>
    intro mode prev acc
    cases mode
    · rw [show sentAux false prev acc (c :: rest) =
        if isPunct3 prev && isWS c then
          acc.reverse :: sentAux true none [] rest
        else sentAux false (some c) (c :: acc) rest from rfl]
      split_ifs with h
      · exact List.cons_ne_nil _ _
      · exact ih false (some c) (c :: acc)
    · rw [show sentAux true prev acc (c :: rest) =
        if isWS c then sentAux true none [] rest
        else sentAux false (some c) [c] rest from rfl]
      split_ifs with h
      · exact ih true none []
      · exact ih false (some c) [c]

theorem splitSentences_ne_nil (p : List Char) : splitSentences p ≠ [] :=
  sentAux_ne_nil p false none []

theorem joinSpace_ne_nil {t : List Char} {ts : List (List Char)}
    (ht : t ≠ []) : joinSpace (t :: ts) ≠ [] := by
  cases ts with
  | nil => exact ht
  | cons t' ts' =>
    show t ++ ' ' :: joinSpace (t' :: ts') ≠ []
    intro h
    exact List.cons_ne_nil _ _ (List.append_eq_nil.mp h).2

theorem joinSpace_head_not_ws : ∀ (g : List (List Char)),
    (∀ x ∈ g, x ≠ [] ∧ (∀ c, x.head? = some c → isWS c = false)) →
    ∀ c, (joinSpace g).head? = some c → isWS c = false := by
  intro g hg c hc
  cases g with
  | nil => exact Option.noConfusion hc
  | cons t ts =>
    cases ts with
    | nil => exact (hg t (by simp)).2 c hc
    | cons t' ts' =>
      have ht := (hg t (by simp)).1
      cases t with
      | nil => exact absurd rfl ht
      | cons a t₀ =>
        have hca : c = a := by
          rw [show joinSpace ((a :: t₀) :: t' :: ts') =
            (a :: t₀) ++ ' ' :: joinSpace (t' :: ts') from rfl] at hc
          simpa using hc.symm
        subst hca
        exact (hg (c :: t₀) (by simp)).2 c rfl

theorem joinSpace_last_not_ws : ∀ (g : List (List Char)),
    (∀ x ∈ g, x ≠ [] ∧ (∀ c, x.getLast? = some c → isWS c = false)) →
    ∀ c, (joinSpace g).getLast? = some c → isWS c = false := by
  intro g
  induction g with
  | nil =>
    intro _ c hc
    exact Option.noConfusion hc
  | cons t ts ih =>
    intro hg c hc
    cases ts with
    | nil => exact (hg t (by simp)).2 c hc
    | cons t' ts' =>
      have hJne : joinSpace (t' :: ts') ≠ [] :=
        joinSpace_ne_nil (hg t' (by simp)).1
      rw [show joinSpace (t :: t' :: ts') =
          t ++ ' ' :: joinSpace (t' :: ts') from rfl,
        List.getLast?_append_of_ne_nil _ (List.cons_ne_nil _ _),
        show (' ' :: joinSpace (t' :: ts'))
          = [' '] ++ joinSpace (t' :: ts') from rfl,
        List.getLast?_append_of_ne_nil _ hJne] at hc
      exact ih (fun x hx => hg x (List.mem_cons_of_mem _ hx)) c hc

theorem joinSpace_append_singleton : ∀ (g : List (List Char)) (s : List Char),
    g ≠ [] → joinSpace (g ++ [s]) = joinSpace g ++ ' ' :: s := by
  intro g
  induction g with
  | nil =>
    intro s h
    exact absurd rfl h
  | cons t ts ih =>
    intro s _
    cases ts with
    | nil => rfl
    | cons t' ts' =>
      show t ++ ' ' :: joinSpace ((t' :: ts') ++ [s])
        = (t ++ ' ' :: joinSpace (t' :: ts')) ++ ' ' :: s
      rw [ih s (List.cons_ne_nil _ _)]
      simp

theorem visChars_joinSpace : ∀ (g : List (List Char)),
    visChars (joinSpace g) = (g.map visChars).flatten := by
  intro g
  induction g with
  | nil => rfl
  | cons t ts ih =>
    cases ts with
    | nil =>
      show visChars t = (([t]).map visChars).flatten
      simp
    | cons t' ts' =>
      show visChars (t ++ ' ' :: joinSpace (t' :: ts')) = _
      rw [visChars_append, visChars_cons_of_ws (by decide), ih]
      simp

theorem strip_joinSpace {T : List (List Char)}
    (hT : ∀ s ∈ T, s ≠ [] ∧ (∀ d, s.head? = some d → isWS d = false) ∧
      (∀ d, s.getLast? = some d → isWS d = false)) :
    ∀ (g : List (List Char)), (∀ x ∈ g, x ∈ T) →
      strip (joinSpace g) = joinSpace g := by
  intro g hg
  cases g with
  | nil => rfl
  | cons t ts =>
    refine strip_eq_self ?_ ?_
    · exact joinSpace_head_not_ws (t :: ts)
        (fun x hx => ⟨(hT x (hg x hx)).1, (hT x (hg x hx)).2.1⟩)
    · exact joinSpace_last_not_ws (t :: ts)
        (fun x hx => ⟨(hT x (hg x hx)).1, (hT x (hg x hx)).2.2⟩)

theorem buildChunksAux_delta (max : Nat) : ∀ (ss : List (List Char))
    (chunks : List (List Char)) (cur : List Char),
    buildChunksAux max ss chunks cur
      = chunks ++ buildChunksAux max ss [] cur := by
  intro ss
  induction ss with
  | nil =>
    intro chunks cur
    rw [show buildChunksAux max [] chunks cur =
        if strip cur ≠ [] then chunks ++ [strip cur] else chunks from rfl,
      show buildChunksAux max [] [] cur =
        if strip cur ≠ [] then [] ++ [strip cur] else [] from rfl]
    split_ifs with h
    · rfl
    · simp
  | cons s ss' ih =>
    intro chunks cur
    rw [show buildChunksAux max (s :: ss') chunks cur =
        if cur ≠ [] ∧ max < cur.length + 1 + s.length then
          buildChunksAux max ss' (chunks ++ [strip cur]) s
        else buildChunksAux max ss' chunks
          (if cur = [] then s else cur ++ (' ' :: s)) from rfl,
      show buildChunksAux max (s :: ss') [] cur =
        if cur ≠ [] ∧ max < cur.length + 1 + s.length then
          buildChunksAux max ss' ([] ++ [strip cur]) s
        else buildChunksAux max ss' []
          (if cur = [] then s else cur ++ (' ' :: s)) from rfl]
    split_ifs with h
    · rw [ih (chunks ++ [strip cur]) s, ih ([] ++ [strip cur]) s]
      simp
    · exact ih chunks _
    · exact ih chunks _

theorem groupChunksAux_delta (max : Nat) : ∀ (ss : List (List Char))
    (gs : List (List (List Char))) (g : List (List Char)),
    groupChunksAux max ss gs g = gs ++ groupChunksAux max ss [] g := by
  intro ss
  induction ss with
  | nil =>
    intro gs g
    rw [show groupChunksAux max [] gs g =
        if g ≠ [] then gs ++ [g] else gs from rfl,
      show groupChunksAux max [] [] g =
        if g ≠ [] then [] ++ [g] else [] from rfl]
    split_ifs with h
    · rfl
    · simp
  | cons s ss' ih =>
    intro gs g
    rw [show groupChunksAux max (s :: ss') gs g =
        if joinSpace g ≠ [] ∧ max < (joinSpace g).length + 1 + s.length then
          groupChunksAux max ss' (gs ++ [g]) [s]
        else groupChunksAux max ss' gs (g ++ [s]) from rfl,
      show groupChunksAux max (s :: ss') [] g =
        if joinSpace g ≠ [] ∧ max < (joinSpace g).length + 1 + s.length then
          groupChunksAux max ss' ([] ++ [g]) [s]
        else groupChunksAux max ss' [] (g ++ [s]) from rfl]
    split_ifs with h
    · rw [ih (gs ++ [g]) [s], ih ([] ++ [g]) [s]]
      simp
    · exact ih gs _

theorem buildChunks_groupChunks (max : Nat) (T : List (List Char))
    (hT : ∀ s ∈ T, s ≠ [] ∧ (∀ d, s.head? = some d → isWS d = false) ∧
      (∀ d, s.getLast? = some d → isWS d = false)) :
    ∀ (ss : List (List Char)), (∀ s ∈ ss, s ∈ T) →
    ∀ (gs : List (List (List Char))) (g : List (List Char)),
      (∀ x ∈ g, x ∈ T) →
      buildChunksAux max ss (gs.map joinSpace) (joinSpace g)
        = (groupChunksAux max ss gs g).map joinSpace := by
  have hne : ∀ g : List (List Char), (∀ x ∈ g, x ∈ T) →
      (g ≠ [] → joinSpace g ≠ []) := by
    intro g hg hgn
    cases g with
    | nil => exact absurd rfl hgn
    | cons t ts => exact joinSpace_ne_nil (hT t (hg t (by simp))).1
  intro ss
  induction ss with
  | nil =>
    intro _ gs g hg
    rw [show buildChunksAux max [] (gs.map joinSpace) (joinSpace g) =
        if strip (joinSpace g) ≠ [] then
          gs.map joinSpace ++ [strip (joinSpace g)]
        else gs.map joinSpace from rfl,
      show groupChunksAux max [] gs g =
        if g ≠ [] then gs ++ [g] else gs from rfl,
      strip_joinSpace hT g hg]
    by_cases hgn : g = []
    · subst hgn
      rw [if_neg (by simp [joinSpace]), if_neg (by simp)]
    · rw [if_pos (hne g hg hgn), if_pos hgn, List.map_append]
      rfl
  | cons s ss' ih =>
    intro hss gs g hg
    have hsT : s ∈ T := hss s (List.mem_cons_self _ _)
    have hss' : ∀ x ∈ ss', x ∈ T :=
      fun x hx => hss x (List.mem_cons_of_mem _ hx)
    rw [show buildChunksAux max (s :: ss') (gs.map joinSpace) (joinSpace g) =
        if joinSpace g ≠ [] ∧ max < (joinSpace g).length + 1 + s.length then
          buildChunksAux max ss'
            (gs.map joinSpace ++ [strip (joinSpace g)]) s
        else buildChunksAux max ss' (gs.map joinSpace)
          (if joinSpace g = [] then s
           else joinSpace g ++ (' ' :: s)) from rfl,
      show groupChunksAux max (s :: ss') gs g =
        if joinSpace g ≠ [] ∧ max < (joinSpace g).length + 1 + s.length then
          groupChunksAux max ss' (gs ++ [g]) [s]
        else groupChunksAux max ss' gs (g ++ [s]) from rfl]
    by_cases hcond : joinSpace g ≠ [] ∧ max < (joinSpace g).length + 1 + s.length
    · rw [if_pos hcond, if_pos hcond, strip_joinSpace hT g hg,
        show gs.map joinSpace ++ [joinSpace g] = (gs ++ [g]).map joinSpace
          from by rw [List.map_append]; rfl]
      exact ih hss' (gs ++ [g]) [s]
        (fun x hx => by rw [List.mem_singleton] at hx; subst hx; exact hsT)
    · rw [if_neg hcond, if_neg hcond]
      by_cases hgn : g = []
      · subst hgn
        rw [if_pos (show joinSpace [] = [] from rfl)]
        exact ih hss' gs [s]
          (fun x hx => by rw [List.mem_singleton] at hx; subst hx; exact hsT)
      · rw [if_neg (hne g hg hgn),
          show joinSpace g ++ (' ' :: s) = joinSpace (g ++ [s])
            from (joinSpace_append_singleton g s hgn).symm]
        refine ih hss' gs (g ++ [s]) ?_
        intro x hx
        rcases List.mem_append.mp hx with h | h
        · exact hg x h
        · rw [List.mem_singleton] at h
          subst h
          exact hsT

theorem groupChunksAux_flatten (max : Nat) : ∀ (ss : List (List Char))
    (gs : List (List (List Char))) (g : List (List Char)),
    (groupChunksAux max ss gs g).flatten = gs.flatten ++ g ++ ss := by
  intro ss
  induction ss with
  | nil =>
    intro gs g
    rw [show groupChunksAux max [] gs g =
      if g ≠ [] then gs ++ [g] else gs from rfl]
    split_ifs with h
    · rw [List.flatten_append]
      simp
    · have hg0 : g = [] := by simpa using h
      subst hg0
      simp
  | cons s ss' ih =>
    intro gs g
    rw [show groupChunksAux max (s :: ss') gs g =
        if joinSpace g ≠ [] ∧ max < (joinSpace g).length + 1 + s.length then
          groupChunksAux max ss' (gs ++ [g]) [s]
        else groupChunksAux max ss' gs (g ++ [s]) from rfl]
    split_ifs with h
    · rw [ih (gs ++ [g]) [s], List.flatten_append]
      simp
    · rw [ih gs (g ++ [s])]
      simp

theorem groupChunksAux_no_nil (max : Nat) : ∀ (ss : List (List Char))
    (gs : List (List (List Char))) (g : List (List Char)),
    [] ∉ gs → [] ∉ groupChunksAux max ss gs g := by
  intro ss
  induction ss with
  | nil =>
    intro gs g hgs
    rw [show groupChunksAux max [] gs g =
      if g ≠ [] then gs ++ [g] else gs from rfl]
    split_ifs with h
    · intro hmem
      rcases List.mem_append.mp hmem with h1 | h1
      · exact hgs h1
      · rw [List.mem_singleton] at h1
        exact h h1.symm
    · exact hgs
  | cons s ss' ih =>
    intro gs g hgs
    rw [show groupChunksAux max (s :: ss') gs g =
        if joinSpace g ≠ [] ∧ max < (joinSpace g).length + 1 + s.length then
          groupChunksAux max ss' (gs ++ [g]) [s]
        else groupChunksAux max ss' gs (g ++ [s]) from rfl]
    split_ifs with h
    · refine ih (gs ++ [g]) [s] ?_
      intro hmem
      rcases List.mem_append.mp hmem with h1 | h1
      · exact hgs h1
      · rw [List.mem_singleton] at h1
        subst h1  -- hmm direction
        exact h.1 rfl
    · exact ih gs (g ++ [s]) hgs

theorem flatten_map_flatten {α β : Type} (f : α → List β) :
    ∀ (L : List (List α)),
      (L.map (fun g => (g.map f).flatten)).flatten
        = ((L.flatten).map f).flatten := by
  intro L
  induction L with
  | nil => rfl
  | cons g L ih =>
    simp only [List.map_cons, List.flatten_cons, List.map_append,
      List.flatten_append, ih]

theorem foldl_corr {α β γ : Type} (f : β → α → β) (g : γ → α → γ)
    (R : β → γ → Prop) :
    ∀ (l : List α) (b : β) (c : γ),
      (∀ b' c' a, a ∈ l → R b' c' → R (f b' a) (g c' a)) → R b c →
      R (l.foldl f b) (l.foldl g c) := by
  intro l
  induction l with
  | nil =>
    intro b c _ h
    exact h
  | cons a t ih =>
    intro b c hstep h
    exact ih (f b a) (g c a)
      (fun b' c' a' ha' h' => hstep b' c' a' (List.mem_cons_of_mem _ ha') h')
      (hstep b c a (List.mem_cons_self _ _) h)

theorem smart_groups_map (text : List Char) (max : Nat) :
    (smart_text_split text max).map visChars
      = (specSentenceGroups text max).map
          (fun g => (g.map visChars).flatten) := by
  unfold smart_text_split specSentenceGroups
  refine foldl_corr _ _
    (fun (b : List (List Char)) (c : List (List (List Char))) =>
      b.map visChars = c.map (fun g => (g.map visChars).flatten))
    (splitParas text) [] [] ?_ rfl
  intro chunks gs para hpara hR
  dsimp only
  by_cases h0 : strip para = []
  · rw [if_pos h0, if_pos h0]
    exact hR
  · rw [if_neg h0, if_neg h0]
    by_cases h1 : (strip para).length ≤ max
    · rw [if_pos h1, if_pos h1, List.map_append, List.map_append, hR]
      congr 1
      rw [show (([strip para]).map visChars) = [visChars (strip para)]
          from rfl,
        show (([splitSentences (strip para)]).map
            (fun g => (g.map visChars).flatten))
          = [((splitSentences (strip para)).map visChars).flatten] from rfl,
        splitSentences_visChars]
    · rw [if_neg h1, if_neg h1,
        buildChunksAux_delta max (splitSentences (strip para)) chunks [],
        groupChunksAux_delta max (splitSentences (strip para)) gs [],
        List.map_append, List.map_append, hR]
      congr 1
      have hcorr := buildChunks_groupChunks max (splitSentences (strip para))
        (splitSentences_tokens (strip_idem para) h0)
        (splitSentences (strip para)) (fun s hs => hs) [] []
        (fun x hx => absurd hx (List.not_mem_nil x))
      rw [show buildChunksAux max (splitSentences (strip para)) [] [] =
        (groupChunksAux max (splitSentences (strip para)) [] []).map joinSpace
        from hcorr]
      rw [List.map_map]
      refine List.map_congr_left ?_
      intro g' _
      exact visChars_joinSpace g'

theorem groups_flatten (text : List Char) (max : Nat) :
    (specSentenceGroups text max).flatten = sentencesOf text := by
  unfold specSentenceGroups sentencesOf
  refine foldl_corr _ _
    (fun (gs : List (List (List Char))) (acc : List (List Char)) =>
      gs.flatten = acc)
    (splitParas text) [] [] ?_ rfl
  intro gs acc para hpara hR
  dsimp only
  by_cases h0 : strip para = []
  · rw [if_pos h0, if_pos h0]
    exact hR
  · rw [if_neg h0, if_neg h0]
    by_cases h1 : (strip para).length ≤ max
    · rw [if_pos h1, List.flatten_append, hR]
      simp
    · rw [if_neg h1, groupChunksAux_delta max _ gs [], List.flatten_append,
        hR, groupChunksAux_flatten max _ [] []]
      simp

theorem groups_no_nil (text : List Char) (max : Nat) :
    [] ∉ specSentenceGroups text max := by
  unfold specSentenceGroups
  refine foldl_invariant _ (fun gs => [] ∉ gs) (splitParas text) [] ?_
    (List.not_mem_nil _)
  intro gs para hpara hgs
  dsimp only
  by_cases h0 : strip para = []
  · rw [if_pos h0]
    exact hgs
  · rw [if_neg h0]
    by_cases h1 : (strip para).length ≤ max
    · rw [if_pos h1]
      intro hmem
      rcases List.mem_append.mp hmem with h | h
      · exact hgs h
      · rw [List.mem_singleton] at h
        exact splitSentences_ne_nil _ h.symm
    · rw [if_neg h1]
      exact groupChunksAux_no_nil max _ gs [] hgs

theorem smart_visChars (text : List Char) (max : Nat) :
    visChars (joinSpace (smart_text_split text max)) = visChars text := by
  rw [visChars_joinSpace, smart_groups_map, flatten_map_flatten,
    groups_flatten]
  have hsv : ∀ (ps : List (List Char)) (acc : List (List Char)),
      ((ps.foldl (fun acc para =>
        if strip para = [] then acc
        else acc ++ splitSentences (strip para)) acc).map visChars).flatten
        = ((acc.map visChars).flatten ++ ((ps.map visChars)).flatten) := by
    intro ps
    induction ps with
    | nil =>
      intro acc
      simp
    | cons para ps' ih =>
      intro acc
      rw [List.foldl_cons]
      by_cases h0 : strip para = []
      · rw [if_pos h0, ih]
        have hv : visChars para = [] := by
          rw [← visChars_strip, h0]
          rfl
        simp [hv]
      · rw [if_neg h0, ih, List.map_append, List.flatten_append,
          splitSentences_visChars, visChars_strip]
        simp [List.append_assoc]
  have h2 := hsv (splitParas text) []
  calc ((sentencesOf text).map visChars).flatten
      = (((splitParas text).foldl (fun acc para =>
          if strip para = [] then acc
          else acc ++ splitSentences (strip para)) []).map visChars).flatten
        := rfl
    _ = ((([] : List (List Char)).map visChars).flatten
          ++ (((splitParas text).map visChars)).flatten) := h2
    _ = visChars text := by
        rw [splitParas_visChars]
        rfl

/-- **C2.**  Space-joining the chunks of `smart_text_split` reproduces the
input up to whitespace normalization, and chunks respect sentences: the
non-whitespace characters of the joined output equal those of the input, in
order (none added, removed or reordered); each chunk's non-whitespace text is
the in-order concatenation of a consecutive group of whole sentences (so no
sentence is split across two chunks); the groups, flattened in chunk order,
are exactly the input's sentences in document order; and no group is empty.
Degenerate (empty or all-whitespace) input yields no sentences and no
chunks. -/
theorem c2_reconstruction (text : List Char) (max_length : Nat)
    (hmax : 0 < max_length) :
    visChars (joinSpace (smart_text_split text max_length)) = visChars text ∧
    (smart_text_split text max_length).map visChars
      = (specSentenceGroups text max_length).map
          (fun g => (g.map visChars).flatten) ∧
    (specSentenceGroups text max_length).flatten = sentencesOf text ∧
    [] ∉ specSentenceGroups text max_length :=
  ⟨smart_visChars text max_length, smart_groups_map text max_length,
    groups_flatten text max_length, groups_no_nil text max_length⟩

/-- **C2, witness**: the concrete text `One. Two.` under the default chunk
bound. -/
theorem c2_reconstruction_witness :
    0 < 300 ∧
    (visChars (joinSpace (smart_text_split (("One. Two.").toList) 300))
        = visChars (("One. Two.").toList) ∧
      (smart_text_split (("One. Two.").toList) 300).map visChars
        = (specSentenceGroups (("One. Two.").toList) 300).map
            (fun g => (g.map visChars).flatten) ∧
      (specSentenceGroups (("One. Two.").toList) 300).flatten
        = sentencesOf (("One. Two.").toList) ∧
      [] ∉ specSentenceGroups (("One. Two.").toList) 300) :=
  ⟨by decide, c2_reconstruction (("One. Two.").toList) 300 (by decide)⟩

end Audiobooker
